import Mathlib

/-! # The replicated key-value state machine of `raft-example`

A shallow embedding of `pkg/server/kv.go` (`KeyValueStore` with `Apply`, `Put`,
`Get`, `Snapshot`, `Restore`, `NeedSnapshot`) and the properties its
specification states about it.

Go values are embedded as follows.

* A Go `string` is an immutable sequence of bytes: `GoString := List UInt8`.
* A Go `map[K]V` is either `nil` or an allocated table with unique keys.
  Reading a `nil` map finds nothing, writing to it is a run-time panic.
  The allocated table is an association list with unique keys (`AList`); the
  order of its entries stands for the unspecified iteration order of the map.
* `uint32` and `uint64` fields are naturals; the decoder is the only place where
  their width matters and it reduces or bounds them there.
* A `*pb.Session` stored in the session table is embedded as the `Session`
  record it points to; a write through the pointer replaces the entry.
-/

namespace KV

/-! ## Go strings and maps -/

/-- A Go `[]byte`. -/
abbrev Bytes := List UInt8

/-- A Go `string`: an immutable sequence of bytes (not necessarily UTF-8). -/
abbrev GoString := List UInt8

/-- The contents of an allocated Go map. -/
abbrev Table (K V : Type) := AList (fun _ : K => V)

/-- A Go map value: the `nil` map, or an allocated table. -/
inductive GoMap (K V : Type) where
  | nil : GoMap K V
  | allocated (t : Table K V) : GoMap K V

namespace GoMap

variable {K V : Type} [DecidableEq K]

/-- The Go expression `make(map[K]V)`. -/
def make : GoMap K V := allocated ∅

/-- The Go expression `v, ok := m[k]`: `none` stands for `ok == false`. Reading a
`nil` map is allowed and finds nothing. -/
def lookup (m : GoMap K V) (k : K) : Option V :=
  match m with
  | nil => none
  | allocated t => t.lookup k

/-- The Go statement `m[k] = v`. It panics on a `nil` map (`none`); on an allocated
map it overwrites or adds the entry. -/
def assign (m : GoMap K V) (k : K) (v : V) : Option (GoMap K V) :=
  match m with
  | nil => none
  | allocated t => some (allocated (t.insert k v))

/-- A write through a pointer `p` that was read from or stored in the map under
key `k` (`p.field = ...` with `m[k] == p`): the entry under `k` is replaced.
Such a pointer exists only when the map is allocated. -/
def writeThrough (m : GoMap K V) (k : K) (v : V) : GoMap K V :=
  match m with
  | nil => nil
  | allocated t => allocated (t.insert k v)

/-- The entries a `range` over the map visits (none for the `nil` map). -/
def entries (m : GoMap K V) : List (K × V) :=
  match m with
  | nil => []
  | allocated t => t.entries.map (fun e => (e.1, e.2))

/-- The map is not `nil`. -/
def isAllocated (m : GoMap K V) : Bool :=
  match m with
  | nil => false
  | allocated _ => true

end GoMap

/-! ## Messages of the `api` package -/

/-- The message `pb.Request`: the request envelope. -/
structure Request where
  Key : GoString
  Value : GoString
  Client : Nat
  SequenceNumber : Nat
  deriving DecidableEq, Repr

/-- The message `pb.Response`: the response envelope. -/
structure Response where
  Value : GoString
  deriving DecidableEq, Repr

/-- The message `pb.Session`: the last applied sequence number of one client and
the result of that operation. The zero value is `&pb.Session{}`. -/
structure Session where
  SequenceNumber : Nat := 0
  LastResult : GoString := []
  deriving DecidableEq, Repr

/-- The message `pb.KeyValueStore`: the snapshot of both tables. -/
structure ProtoKeyValueStore where
  KeyValueTable : GoMap GoString GoString := GoMap.nil
  SessionTable : GoMap Nat Session := GoMap.nil

/-! ## The protocol-buffer codec of the `api` package

The generated code of the `api` package and the message declarations it is
generated from are not part of the sources at hand. The codec below follows the
protocol-buffer wire format for `proto3` messages with the fields numbered in the
order in which the sources name them. -/

/-- Modelled from the spec: the base-128 varint writer of the codec the `api`
package relies on, which is not among the sources. `fuel` bounds the number of
bytes written. -/
def putVarintFuel : Nat → Nat → Bytes
  | 0, _ => []
  | fuel + 1, v =>
    if v < 128 then [UInt8.ofNat v]
    else UInt8.ofNat (v % 128 + 128) :: putVarintFuel fuel (v / 128)

/-- Modelled from the spec: the varint encoding of a natural number (`v + 1` bytes
are always enough). -/
def appendVarint (v : Nat) : Bytes := putVarintFuel (v + 1) v

/-- Modelled from the spec: the varint reader; it fails on truncated input. Lengths
are read without a width limit, because a list of the embedding, unlike a Go
slice, has no maximal length; the fields of fixed width check their bound. -/
def consumeVarint : Bytes → Option (Nat × Bytes)
  | [] => none
  | b :: rest =>
    if b.toNat < 128 then some (b.toNat, rest)
    else
      match consumeVarint rest with
      | none => none
      | some (v, rest') => some (b.toNat - 128 + 128 * v, rest')

/-- The payload of one field on the wire, by wire type. -/
inductive WireValue where
  | varint (v : Nat)
  | fixed64 (b : Bytes)
  | bytes (b : Bytes)
  | fixed32 (b : Bytes)
  deriving DecidableEq, Repr

/-- One field on the wire: its number and its payload. -/
structure WireField where
  num : Nat
  value : WireValue
  deriving DecidableEq, Repr

/-- Splits off the first `n` bytes; fails when fewer are left. -/
def takeBytes (n : Nat) (b : Bytes) : Option (Bytes × Bytes) :=
  if n ≤ b.length then some (b.take n, b.drop n) else none

/-- Modelled from the spec: reads one field (tag and payload). Field numbers lie
in `1 .. 2^29 - 1`; a varint payload is a 64-bit value; the group wire types,
which `proto3` messages do not use, and the undefined ones are rejected. -/
def consumeField (b : Bytes) : Option (WireField × Bytes) :=
  match consumeVarint b with
  | none => none
  | some (tag, rest) =>
    if tag / 8 = 0 ∨ 2 ^ 29 ≤ tag / 8 then none
    else
      match tag % 8 with
      | 0 =>
        match consumeVarint rest with
        | none => none
        | some (v, rest') =>
          if v < 2 ^ 64 then some (⟨tag / 8, .varint v⟩, rest') else none
      | 1 =>
        match takeBytes 8 rest with
        | none => none
        | some (p, rest') => some (⟨tag / 8, .fixed64 p⟩, rest')
      | 2 =>
        match consumeVarint rest with
        | none => none
        | some (n, rest') =>
          match takeBytes n rest' with
          | none => none
          | some (p, rest'') => some (⟨tag / 8, .bytes p⟩, rest'')
      | 5 =>
        match takeBytes 4 rest with
        | none => none
        | some (p, rest') => some (⟨tag / 8, .fixed32 p⟩, rest')
      | _ => none

/-- Modelled from the spec: reads fields until the input is used up. Every field
takes at least one byte, so a `fuel` of the length of the input is enough. -/
def consumeFields : Nat → Bytes → Option (List WireField)
  | _, [] => some []
  | 0, _ :: _ => none
  | fuel + 1, b :: bs =>
    match consumeField (b :: bs) with
    | none => none
    | some (f, rest) =>
      match consumeFields fuel rest with
      | none => none
      | some fs => some (f :: fs)

/-- Modelled from the spec: the fields of a whole message. -/
def parseMessage (b : Bytes) : Option (List WireField) := consumeFields b.length b

/-- A continuation byte of UTF-8: `0x80 .. 0xBF`. -/
def isCont (b : UInt8) : Bool := decide (0x80 ≤ b.toNat ∧ b.toNat ≤ 0xBF)

/-- Modelled from the spec: the check of `proto3` that a `string` field holds
well-formed UTF-8 (no overlong forms, no surrogates, at most U+10FFFF); the codec
applies it both when writing and when reading. -/
def utf8Valid : Bytes → Bool
  | [] => true
  | b0 :: rest =>
    if b0.toNat < 0x80 then utf8Valid rest
    else if 0xC2 ≤ b0.toNat ∧ b0.toNat ≤ 0xDF then
      match rest with
      | b1 :: r => isCont b1 && utf8Valid r
      | _ => false
    else if 0xE0 ≤ b0.toNat ∧ b0.toNat ≤ 0xEF then
      match rest with
      | b1 :: b2 :: r =>
        isCont b1 && isCont b2
          && decide (b0.toNat = 0xE0 → 0xA0 ≤ b1.toNat)
          && decide (b0.toNat = 0xED → b1.toNat ≤ 0x9F)
          && utf8Valid r
      | _ => false
    else if 0xF0 ≤ b0.toNat ∧ b0.toNat ≤ 0xF4 then
      match rest with
      | b1 :: b2 :: b3 :: r =>
        isCont b1 && isCont b2 && isCont b3
          && decide (b0.toNat = 0xF0 → 0x90 ≤ b1.toNat)
          && decide (b0.toNat = 0xF4 → b1.toNat ≤ 0x8F)
          && utf8Valid r
      | _ => false
    else false

/-- The tag of a field: number and wire type. -/
def encodeTag (num wireType : Nat) : Bytes := appendVarint (num * 8 + wireType)

/-- A varint field on the wire. -/
def encodeVarintField (num v : Nat) : Bytes := encodeTag num 0 ++ appendVarint v

/-- A length-delimited field on the wire. -/
def encodeBytesField (num : Nat) (b : Bytes) : Bytes :=
  encodeTag num 2 ++ appendVarint b.length ++ b

/-- An error value returned by the codec or by a reader or writer. -/
inductive Error where
  | proto
  | io
  deriving DecidableEq, Repr

/-- Modelled from the spec: merges one wire field into a `pb.Request` (fields
`key = 1`, `value = 2`, `client = 3`, `sequence_number = 4`). A later occurrence
of a field overrides an earlier one, a field that is not known or has another wire
type is skipped, a `string` that is not UTF-8 is an error, and the `uint32` keeps
the low 32 bits. -/
def Request.mergeField (r : Request) (f : WireField) : Option Request :=
  match f.num, f.value with
  | 1, .bytes b => if utf8Valid b then some { r with Key := b } else none
  | 2, .bytes b => if utf8Valid b then some { r with Value := b } else none
  | 3, .varint v => some { r with Client := v % 2 ^ 32 }
  | 4, .varint v => some { r with SequenceNumber := v }
  | _, _ => some r

/-- Modelled from the spec: `proto.Unmarshal(bytes, request)` on a fresh
`pb.Request`; `none` stands for the error it returns. -/
def unmarshalRequest (b : Bytes) : Option Request :=
  match parseMessage b with
  | none => none
  | some fs => fs.foldlM Request.mergeField ⟨[], [], 0, 0⟩

/-- Modelled from the spec: `proto.Marshal(request)`. Fields holding the zero
value are left out; a `string` that is not UTF-8 is an error (`none`). -/
def marshalRequest (r : Request) : Option Bytes :=
  if utf8Valid r.Key && utf8Valid r.Value then
    some ((if r.Key = [] then [] else encodeBytesField 1 r.Key)
      ++ (if r.Value = [] then [] else encodeBytesField 2 r.Value)
      ++ (if r.Client = 0 then [] else encodeVarintField 3 r.Client)
      ++ (if r.SequenceNumber = 0 then [] else encodeVarintField 4 r.SequenceNumber))
  else none

/-- Modelled from the spec: merges one wire field into a `pb.Session` (fields
`sequence_number = 1`, `last_result = 2`). -/
def Session.mergeField (s : Session) (f : WireField) : Option Session :=
  match f.num, f.value with
  | 1, .varint v => some { s with SequenceNumber := v }
  | 2, .bytes b => if utf8Valid b then some { s with LastResult := b } else none
  | _, _ => some s

/-- Modelled from the spec: the bytes of a `pb.Session`; zero values are left out. -/
def marshalSession (s : Session) : Option Bytes :=
  if utf8Valid s.LastResult then
    some ((if s.SequenceNumber = 0 then [] else encodeVarintField 1 s.SequenceNumber)
      ++ (if s.LastResult = [] then [] else encodeBytesField 2 s.LastResult))
  else none

/-- Modelled from the spec: merges one wire field into an entry of the
`map<string, string>` (`key = 1`, `value = 2`). -/
def mergeStringEntry (e : GoString × GoString) (f : WireField) :
    Option (GoString × GoString) :=
  match f.num, f.value with
  | 1, .bytes b => if utf8Valid b then some (b, e.2) else none
  | 2, .bytes b => if utf8Valid b then some (e.1, b) else none
  | _, _ => some e

/-- Modelled from the spec: merges one wire field into an entry of the
`map<uint32, Session>` (`key = 1`, `value = 2`). -/
def mergeSessionEntry (e : Nat × Session) (f : WireField) : Option (Nat × Session) :=
  match f.num, f.value with
  | 1, .varint v => some (v % 2 ^ 32, e.2)
  | 2, .bytes b =>
    match parseMessage b with
    | none => none
    | some fs =>
      match fs.foldlM Session.mergeField e.2 with
      | none => none
      | some s => some (e.1, s)
  | _, _ => some e

/-- Modelled from the spec: an entry of the `map<string, string>` on the wire. Key
and value are always written. -/
def marshalStringEntry (e : GoString × GoString) : Option Bytes :=
  if utf8Valid e.1 && utf8Valid e.2 then
    some (encodeBytesField 1 e.1 ++ encodeBytesField 2 e.2)
  else none

/-- Modelled from the spec: an entry of the `map<uint32, Session>` on the wire. -/
def marshalSessionEntry (e : Nat × Session) : Option Bytes :=
  match marshalSession e.2 with
  | none => none
  | some b => some (encodeVarintField 1 e.1 ++ encodeBytesField 2 b)

/-- Modelled from the spec: the entries of a map field with number `num`, one
length-delimited field per entry, in the order the map is ranged over. -/
def marshalEntries {α : Type} (enc : α → Option Bytes) (num : Nat) :
    List α → Option Bytes
  | [] => some []
  | e :: es =>
    match enc e, marshalEntries enc num es with
    | some b, some bs => some (encodeBytesField num b ++ bs)
    | _, _ => none

/-- Modelled from the spec: how the decoder stores an entry into a map field: the
map is allocated when the first entry arrives, so a message without entries
leaves the field `nil`. -/
def GoMap.store {K V : Type} [DecidableEq K] (m : GoMap K V) (k : K) (v : V) :
    GoMap K V :=
  match m with
  | .nil => .allocated ((∅ : Table K V).insert k v)
  | .allocated t => .allocated (t.insert k v)

/-- Modelled from the spec: merges one wire field into a `pb.KeyValueStore`
(fields `key_value_table = 1`, `session_table = 2`). -/
def ProtoKeyValueStore.mergeField (m : ProtoKeyValueStore) (f : WireField) :
    Option ProtoKeyValueStore :=
  match f.num, f.value with
  | 1, .bytes b =>
    match parseMessage b with
    | none => none
    | some fs =>
      match fs.foldlM mergeStringEntry ([], []) with
      | none => none
      | some e => some { m with KeyValueTable := m.KeyValueTable.store e.1 e.2 }
  | 2, .bytes b =>
    match parseMessage b with
    | none => none
    | some fs =>
      match fs.foldlM mergeSessionEntry (0, {}) with
      | none => none
      | some e => some { m with SessionTable := m.SessionTable.store e.1 e.2 }
  | _, _ => some m

/-- Modelled from the spec: `proto.Unmarshal(data, protoKeyValueStore)` on a fresh
`pb.KeyValueStore`. -/
def unmarshalKeyValueStore (data : Bytes) : Except Error ProtoKeyValueStore :=
  match parseMessage data with
  | none => .error .proto
  | some fs =>
    match fs.foldlM ProtoKeyValueStore.mergeField {} with
    | none => .error .proto
    | some m => .ok m

/-- Modelled from the spec: `proto.Marshal(protoKeyValueStore)`: the entries of the
key-value table, then those of the session table. -/
def marshalKeyValueStore (m : ProtoKeyValueStore) : Except Error Bytes :=
  match marshalEntries marshalStringEntry 1 m.KeyValueTable.entries,
        marshalEntries marshalSessionEntry 2 m.SessionTable.entries with
  | some a, some b => .ok (a ++ b)
  | _, _ => .error .proto

/-! ## Readers and writers -/

/-- An `io.Reader` as `io.ReadAll` sees it: the bytes it yields and the error, if
any, that ends the reading. -/
structure Reader where
  data : Bytes
  err : Option Error := none

/-- The Go call `io.ReadAll(r)`. -/
def Reader.readAll (r : Reader) : Bytes × Option Error := (r.data, r.err)

/-- An `io.Writer`: the bytes written so far and the room that is left (`none`
for a writer that never fails, such as a `bytes.Buffer`). -/
structure Writer where
  buf : Bytes := []
  room : Option Nat := none

/-- A `bytes.Buffer` that holds `buf`: a writer that takes every byte. -/
def Writer.buffer (buf : Bytes) : Writer := { buf := buf, room := none }

/-- The Go call `io.Copy(w, bytes.NewReader(data))`: one `Write` of all of `data`,
which writes what the writer has room for and fails when that is not all of it. -/
def Writer.copy (w : Writer) (data : Bytes) : Writer × Option Error :=
  match w.room with
  | none => ({ w with buf := w.buf ++ data }, none)
  | some n =>
    if data.length ≤ n then ({ buf := w.buf ++ data, room := some (n - data.length) }, none)
    else ({ buf := w.buf ++ data.take n, room := some 0 }, some .io)

/-! ## `raft.Operation` -/

/-- The kind of an operation, `raft.OperationType`. -/
inductive OperationType where
  | Replicated
  | LinearizableReadOnly
  deriving DecidableEq, Repr

/-- The type `raft.Operation`, as far as `Apply` reads it. -/
structure Operation where
  OperationType : OperationType
  Bytes : Bytes
  deriving DecidableEq, Repr

/-! ## `KeyValueStore` -/

/-- The number of log entries that will trigger a snapshot. -/
def snapshotSize : Int := 1000

/-- The struct `KeyValueStore` (the mutex is left out: every call runs alone). -/
structure KeyValueStore where
  keyValueTable : GoMap GoString GoString
  sessionTable : GoMap Nat Session

/-- How a call of `Apply` ends. -/
inductive ApplyOutcome where
  | response (r : Response)
  | fatal
  | panic
  deriving DecidableEq, Repr

/-- The function `NewKeyValueStore`. -/
def NewKeyValueStore : KeyValueStore :=
  { keyValueTable := GoMap.make, sessionTable := GoMap.make }

namespace KeyValueStore

/-- The method `Put`: `kv.keyValueTable[key] = value; return value`. The result
is `none` when the assignment panics because the table is `nil`. -/
def Put (kv : KeyValueStore) (key value : GoString) : Option (KeyValueStore × GoString) :=
  match kv.keyValueTable.assign key value with
  | none => none
  | some t => some ({ kv with keyValueTable := t }, value)

/-- The method `Get`: `return kv.keyValueTable[key]`, the zero value `""` for a key
that is not in the table. -/
def Get (kv : KeyValueStore) (key : GoString) : GoString :=
  match kv.keyValueTable.lookup key with
  | none => []
  | some v => v

/-- The part of `Apply` after the session has been found or created (lines
59-72): dispatch on the kind, then write sequence number and result through
the session pointer. The store is returned as it is when the call ends. -/
def applyEffect (kv : KeyValueStore) (operationType : OperationType) (request : Request) :
    KeyValueStore × ApplyOutcome :=
  let effect : Option (KeyValueStore × GoString) :=
    if operationType = .Replicated then kv.Put request.Key request.Value
    else some (kv, kv.Get request.Key)
  match effect with
  | none => (kv, .panic)
  | some (kv', value) =>
    ({ kv' with
        sessionTable := kv'.sessionTable.writeThrough request.Client
          { SequenceNumber := request.SequenceNumber, LastResult := value } },
      .response ⟨value⟩)

/-- The method `Apply`. The result is the store as the call leaves it and the way
the call ends: with a `*pb.Response`, with `log.Fatalf` on bytes that do not
decode, or with the panic of a write to a `nil` map. -/
def Apply (kv : KeyValueStore) (operation : Operation) : KeyValueStore × ApplyOutcome :=
  match unmarshalRequest operation.Bytes with
  | none => (kv, .fatal)
  | some request =>
    match kv.sessionTable.lookup request.Client with
    | some session =>
      if session.SequenceNumber ≥ request.SequenceNumber then
        (kv, .response ⟨session.LastResult⟩)
      else applyEffect kv operation.OperationType request
    | none =>
      match kv.sessionTable.assign request.Client {} with
      | none => (kv, .panic)
      | some t => applyEffect { kv with sessionTable := t } operation.OperationType request

/-- The method `Restore`: the store afterwards and the returned error. -/
def Restore (kv : KeyValueStore) (snapshotReader : Reader) : KeyValueStore × Option Error :=
  match snapshotReader.readAll with
  | (_, some err) => (kv, some err)
  | (data, none) =>
    match unmarshalKeyValueStore data with
    | .error err => (kv, some err)
    | .ok protoKeyValueStore =>
      ({ keyValueTable := protoKeyValueStore.KeyValueTable,
         sessionTable := protoKeyValueStore.SessionTable }, none)

/-- The method `Snapshot`: the writer afterwards and the returned error. The store
is only read. -/
def Snapshot (kv : KeyValueStore) (snapshotWriter : Writer) : Writer × Option Error :=
  match marshalKeyValueStore
      { KeyValueTable := kv.keyValueTable, SessionTable := kv.sessionTable } with
  | .error err => (snapshotWriter, some err)
  | .ok data => snapshotWriter.copy data

/-- The method `NeedSnapshot`. -/
def NeedSnapshot (_kv : KeyValueStore) (logSize : Int) : Bool :=
  decide (logSize ≥ snapshotSize)

/-- The request is not a duplicate: the client has no session, or its session is
behind the request. -/
def Fresh (kv : KeyValueStore) (request : Request) : Prop :=
  ∀ session, kv.sessionTable.lookup request.Client = some session →
    session.SequenceNumber < request.SequenceNumber

/-- Both tables are allocated, as `NewKeyValueStore` makes them. -/
def Allocated (kv : KeyValueStore) : Prop :=
  kv.keyValueTable.isAllocated = true ∧ kv.sessionTable.isAllocated = true

/-- A sequence of `Apply` calls, one after the other, each of which returns a
response: the store afterwards and the responses in order. The result is `none`
when a call does not return (`log.Fatalf` or a panic), since no call follows it. -/
def applyAll : KeyValueStore → List Operation → Option (KeyValueStore × List Response)
  | kv, [] => some (kv, [])
  | kv, operation :: rest =>
    match kv.Apply operation with
    | (kv', .response r) =>
      match applyAll kv' rest with
      | none => none
      | some (kv'', rs) => some (kv'', r :: rs)
    | _ => none

end KeyValueStore

/-- A store state that `Apply` calls lead to from the store `NewKeyValueStore`
makes. -/
def Reachable (kv : KeyValueStore) : Prop :=
  ∃ operations responses, NewKeyValueStore.applyAll operations = some (kv, responses)

/-! ## The operations of the tests and stores they lead to -/

/-- The first operation of `TestApply`: a put of `"x"` to `"y"` by client 1 with
sequence number 1, marshalled. -/
def testPut : Operation :=
  ⟨.Replicated, (marshalRequest ⟨[0x78], [0x79], 1, 1⟩).getD []⟩

/-- The second operation of `TestApply`: the same request with sequence number 2,
submitted as a read. -/
def testGet : Operation :=
  ⟨.LinearizableReadOnly, (marshalRequest ⟨[0x78], [0x79], 1, 2⟩).getD []⟩

/-- The third operation of `TestApply`: sequence number 2 again, key and value
emptied. -/
def testDuplicate : Operation :=
  ⟨.LinearizableReadOnly, (marshalRequest ⟨[], [], 1, 2⟩).getD []⟩

/-- A put of `"x"` to `"z"` by client 1 with sequence number 2. -/
def putXZ : Operation :=
  ⟨.Replicated, (marshalRequest ⟨[0x78], [0x7a], 1, 2⟩).getD []⟩

/-- A read of `"x"` by client 1 with sequence number 1. -/
def readX : Operation :=
  ⟨.LinearizableReadOnly, (marshalRequest ⟨[0x78], [], 1, 1⟩).getD []⟩

/-- A put of `"x"` to `"y"` by client 2 with sequence number 5. -/
def putByClient2 : Operation :=
  ⟨.Replicated, (marshalRequest ⟨[0x78], [0x79], 2, 5⟩).getD []⟩

/-- A put of `"x"` to `"y"` by client 1 with sequence number 0. -/
def putSeq0 : Operation :=
  ⟨.Replicated, (marshalRequest ⟨[0x78], [0x79], 1, 0⟩).getD []⟩

/-- The store of `TestApply` after its put and its get. -/
def testStore : KeyValueStore :=
  ((NewKeyValueStore.Apply testPut).1.Apply testGet).1

/-- The store a fresh `KeyValueStore` holds after `Restore` has read the bytes
that `Snapshot` wrote for `kv` into an empty `bytes.Buffer`. -/
def restoredFrom (kv : KeyValueStore) : KeyValueStore :=
  (NewKeyValueStore.Restore { data := (kv.Snapshot (Writer.buffer [])).1.buf }).1

/-- The store of `TestSnapshotRestore`, whose tables the test assigns directly:
`{"x": "y"}` and `{1: {SequenceNumber: 1, LastResult: "z"}}`. -/
def testSnapshotStore : KeyValueStore :=
  { keyValueTable := .allocated ((∅ : Table GoString GoString).insert [0x78] [0x79]),
    sessionTable := .allocated ((∅ : Table Nat Session).insert 1 ⟨1, [0x7a]⟩) }

/-- What the codec asks of a store to write it: every key, value and result is
UTF-8, every client ID is a `uint32` and every sequence number a `uint64`. -/
def WellFormed (kv : KeyValueStore) : Prop :=
  (∀ k v, kv.keyValueTable.lookup k = some v → utf8Valid k = true ∧ utf8Valid v = true) ∧
  (∀ c s, kv.sessionTable.lookup c = some s →
    c < 2 ^ 32 ∧ s.SequenceNumber < 2 ^ 64 ∧ utf8Valid s.LastResult = true)

/-- The merge of one entry into the key-value table of a `pb.KeyValueStore`. -/
def ProtoKeyValueStore.storeKeyValue (m : ProtoKeyValueStore) (e : GoString × GoString) :
    ProtoKeyValueStore :=
  { m with KeyValueTable := m.KeyValueTable.store e.1 e.2 }

/-- The merge of one entry into the session table of a `pb.KeyValueStore`. -/
def ProtoKeyValueStore.storeSession (m : ProtoKeyValueStore) (e : Nat × Session) :
    ProtoKeyValueStore :=
  { m with SessionTable := m.SessionTable.store e.1 e.2 }

/-! ## `cmd/utils`: `ParseCluster` -/

/-- The bytes of a Go string literal. -/
def goString (s : String) : GoString := s.toUTF8.data.toList

/-- The Go call `strings.Cut(s, sep)` for a separator of one byte, as `":"` is:
the text before the first `sep`, the text after it and `true`; `s`, `""` and
`false` when `sep` does not occur in `s`. -/
def Cut (s : GoString) (sep : UInt8) : GoString × GoString × Bool :=
  match s with
  | [] => ([], [], false)
  | b :: rest =>
    if b = sep then ([], rest, true)
    else
      match Cut rest sep with
      | (before, after, true) => (b :: before, after, true)
      | (_, _, false) => (b :: rest, [], false)

/-- The error `fmt.Errorf("failed to parse cluster: cluster = %v", cluster)`. -/
structure ParseClusterError where
  cluster : List GoString
  deriving DecidableEq, Repr

/-- The loop of `ParseCluster` over the members that are left, with the map built
so far. It returns the map and a `nil` error, or the `nil` map and the error. -/
def parseMembers (cluster : List GoString) (configuration : Table GoString GoString) :
    List GoString → GoMap GoString GoString × Option ParseClusterError
  | [] => (.allocated configuration, none)
  | member :: rest =>
    match Cut member 0x3a with
    | (id, address, true) => parseMembers cluster (configuration.insert id address) rest
    | (_, _, false) => (.nil, some ⟨cluster⟩)

/-- The function `ParseCluster`: the map from ID to address and the error. -/
def ParseCluster (cluster : List GoString) :
    GoMap GoString GoString × Option ParseClusterError :=
  parseMembers cluster ∅ cluster

/-- The cluster of `TestParseCluster`. -/
def testCluster : List GoString :=
  [goString "n1:127.0.0.0:8080", goString "n2:127.0.0.1:8080", goString "n3:127.0.0.2:8080"]

/-! ## `pkg/server/server.go`: the request router -/

/-- An error of the raft library, as far as the router tells errors apart: the two
it names and any other. -/
inductive RaftError where
  | ErrNotLeader
  | ErrTimeout
  | other (n : Nat)
  deriving DecidableEq, Repr

/-- The success value of the library, `raft.OperationResponse`: what `Apply` of the
state machine returned. The state machine is the `KeyValueStore`, whose `Apply`
returns a `*pb.Response`, so the type assertion of the router holds. -/
structure OperationResponse where
  ApplicationResponse : Response
  deriving DecidableEq, Repr

/-- What `future.Await()` yields: a result with an error or with a success. -/
inductive RaftResult where
  | success (response : OperationResponse)
  | failure (err : RaftError)
  deriving DecidableEq, Repr

/-- One call of `node.SubmitOperation`: the bytes, the kind and the deadline (in
nanoseconds). -/
structure Submission where
  operation : Bytes
  operationType : OperationType
  timeout : Int
  deriving DecidableEq, Repr

/-- The raft node as the router sees it: the submissions made so far, and what the
engine answers to a submission given the ones before it. -/
structure Node where
  submitted : List Submission
  await : List Submission → Submission → RaftResult

/-- The calls `node.SubmitOperation(operation, operationType, timeout)` and
`future.Await()`: the submission is recorded and the engine answers. -/
def Node.SubmitOperation (node : Node) (operation : Bytes) (operationType : OperationType)
    (timeout : Int) : Node × RaftResult :=
  ({ node with submitted := node.submitted ++ [⟨operation, operationType, timeout⟩] },
    node.await node.submitted ⟨operation, operationType, timeout⟩)

/-- The status codes of gRPC that the router uses. -/
inductive Code where
  | FailedPrecondition
  | Unavailable
  deriving DecidableEq, Repr

/-- An error made by `status.Error(code, message)`. -/
structure StatusError where
  code : Code
  message : String
  deriving DecidableEq, Repr

/-- The struct `Server`, as far as the router reads it. -/
structure Server where
  id : GoString
  node : Node

/-- How a call of the router ends: it returns a response and an error, either of
which may be `nil`, or the process ends in `log.Fatalf`. -/
inductive RouterOutcome where
  | returned (response : Option Response) (err : Option StatusError)
  | fatal
  deriving DecidableEq, Repr

namespace Server

/-- The error `ErrNotLeader` of the package `server`. -/
def ErrNotLeader : StatusError :=
  ⟨.FailedPrecondition, "keyValueServer: this node is not the leader"⟩

/-- The error `ErrTimeout` of the package `server`. -/
def ErrTimeout : StatusError :=
  ⟨.Unavailable, "keyValueServer: the submitted operation timed out"⟩

/-- The constant `futureTimeout`: `500 * time.Millisecond`, in nanoseconds. -/
def futureTimeout : Int := 500 * 1000000

/-- The method `submitOperation` of the server: the server afterwards and the way
the call ends. -/
def submitOperation (s : Server) (request : Request) (operationType : OperationType) :
    Server × RouterOutcome :=
  match marshalRequest request with
  | none => (s, .fatal)
  | some operation =>
    match s.node.SubmitOperation operation operationType futureTimeout with
    | (node, .failure .ErrNotLeader) => ({ s with node := node }, .returned none (some ErrNotLeader))
    | (node, .failure .ErrTimeout) => ({ s with node := node }, .returned none (some ErrTimeout))
    | (node, .failure (.other _)) => ({ s with node := node }, .fatal)
    | (node, .success response) =>
      ({ s with node := node }, .returned (some response.ApplicationResponse) none)

/-- The method `Get` of the server. -/
def Get (s : Server) (request : Request) : Server × RouterOutcome :=
  s.submitOperation request .LinearizableReadOnly

/-- The method `Put` of the server. -/
def Put (s : Server) (request : Request) : Server × RouterOutcome :=
  s.submitOperation request .Replicated

/-- What the router makes of one submission: the submission `sub` is the one call
added to those of `before`, and the outcome is the translation of what the engine
answers to it. -/
def Translates (before : Server) (sub : Submission) (result : Server × RouterOutcome) : Prop :=
  result.1.node.submitted = before.node.submitted ++ [sub] ∧
  (∀ response, before.node.await before.node.submitted sub = .success response →
    result.2 = .returned (some response.ApplicationResponse) none) ∧
  (before.node.await before.node.submitted sub = .failure .ErrNotLeader →
    result.2 = .returned none (some ErrNotLeader)) ∧
  (before.node.await before.node.submitted sub = .failure .ErrTimeout →
    result.2 = .returned none (some ErrTimeout)) ∧
  (∀ n, before.node.await before.node.submitted sub = .failure (.other n) →
    result.2 = .fatal)

end Server

/-- A server whose engine answers every submission with the response `"y"`. -/
def testServer : Server :=
  { id := goString "n1", node := { submitted := [], await := fun _ _ => .success ⟨⟨goString "y"⟩⟩ } }

/-! ## `pkg/client/client.go`: the client -/

/-- An error value made by `errors.New(message)` or handed on from a library. -/
structure GoError where
  message : String
  deriving DecidableEq, Repr

/-- The two calls a server offers, `Get` and `Put` of `pb.KeyValueClient`; the
closure `submit` of the client makes one of them. -/
inductive Rpc where
  | Get
  | Put
  deriving DecidableEq, Repr

/-- One per-node call `submit(client, request)`: the ID of the node whose handle is
called, the call made and the request sent. -/
structure Attempt where
  node : GoString
  rpc : Rpc
  request : Request
  deriving DecidableEq, Repr

/-- What the world outside decides while `submitOperation` runs: the clock, the
order of the map iteration and the answers of the servers.

* `since n` is the value of `time.Since(start)`, in nanoseconds, when the loop
  condition is tested for the `n`-th time (counting from 0);
* `order n` is the order in which the `range` over `c.clients` of the `n`-th
  iteration visits the IDs (Go leaves it open, and it may change from one
  iteration to the next);
* `call n id rpc request` is the outcome of the `n`-th per-node call of the run,
  made to the node `id`: `some value` for a response with that value and a `nil`
  error, `none` for an error. -/
structure World where
  since : Nat → Int
  order : Nat → List GoString
  call : Nat → GoString → Rpc → Request → Option GoString

/-- The struct `Client`. The handles in `clients` are stubs of the RPC layer; the
embedding keeps the IDs under which they are stored. `leaderID` is `""` or one of
these IDs in every client that `NewClient` and `submitOperation` produce. -/
structure Client where
  id : Nat
  sequenceNumber : Nat
  leaderID : GoString
  nodes : GoMap GoString GoString
  clients : List GoString

/-- What a call of `submitOperation` leaves and returns: the client afterwards, the
per-node calls it made in order, and the pair of string and error it returns. -/
structure Submitted where
  client : Client
  attempts : List Attempt
  value : GoString
  err : Option GoError

namespace Client

/-- The error `ErrTimeout` of the package `client`. -/
def ErrTimeout : GoError := ⟨"operation failed: client-specified timeout elapsed"⟩

/-- The function `NewClient`, given what `uuid.NewUUID` yields (the 32-bit ID that
`id.ID()` reads from it, or `none` for an error) and which addresses `grpc.Dial`
fails on. The result is `none` when an error is returned. The fields that the
struct literal does not name are zero: `sequenceNumber` is 0, `leaderID` is `""`. -/
def NewClient (uuid : Option Nat) (dialFails : GoString → Bool)
    (nodes : GoMap GoString GoString) : Option Client :=
  match uuid with
  | none => none
  | some id =>
    if nodes.entries.any (fun e => dialFails e.2) then none
    else some
      { id := id, sequenceNumber := 0, leaderID := [], nodes := nodes,
        clients := nodes.entries.map (fun e => e.1) }

/-- The inner loop of `submitOperation` (lines 114-120) over the IDs that are left:
the first node that answers without an error ends it with its ID and value. Every
call is recorded. -/
def sweep (world : World) (rpc : Rpc) (request : Request) :
    List GoString → List Attempt → Option (GoString × GoString) × List Attempt
  | [], attempts => (none, attempts)
  | id :: rest, attempts =>
    match world.call attempts.length id rpc request with
    | some value => (some (id, value), attempts ++ [⟨id, rpc, request⟩])
    | none => sweep world rpc request rest (attempts ++ [⟨id, rpc, request⟩])

/-- The outer loop of `submitOperation` (lines 102-123) from its `iteration`-th test
of the condition on, with the leader ID and the calls made so far. It yields the
leader ID at the return, the calls made, and the returned string and error; `none`
when `fuel` iterations do not reach a return. -/
def loop (world : World) (rpc : Rpc) (request : Request) (timeout : Int) :
    Nat → Nat → GoString → List Attempt →
      Option (GoString × List Attempt × GoString × Option GoError)
  | 0, _, _, _ => none
  | fuel + 1, iteration, leaderID, attempts =>
    if world.since iteration < timeout then
      if leaderID ≠ [] then
        match world.call attempts.length leaderID rpc request with
        | some value => some (leaderID, attempts ++ [⟨leaderID, rpc, request⟩], value, none)
        | none =>
          match sweep world rpc request (world.order iteration)
              (attempts ++ [⟨leaderID, rpc, request⟩]) with
          | (some (id, value), attempts') => some (id, attempts', value, none)
          | (none, attempts') => loop world rpc request timeout fuel (iteration + 1) [] attempts'
      else
        match sweep world rpc request (world.order iteration) attempts with
        | (some (id, value), attempts') => some (id, attempts', value, none)
        | (none, attempts') =>
          loop world rpc request timeout fuel (iteration + 1) leaderID attempts'
    else some (leaderID, attempts, [], some ErrTimeout)

/-- The method `submitOperation` of the client, run for at most `fuel` iterations
of its loop. The deferred `c.sequenceNumber++` runs at the return; the field is a
`uint64`. -/
def submitOperation (c : Client) (world : World) (rpc : Rpc) (request : Request)
    (timeout : Int) (fuel : Nat) : Option Submitted :=
  match loop world rpc request timeout fuel 0 c.leaderID [] with
  | none => none
  | some (leaderID, attempts, value, err) =>
    some
      { client := { c with leaderID := leaderID,
                           sequenceNumber := (c.sequenceNumber + 1) % 2 ^ 64 },
        attempts := attempts, value := value, err := err }

/-- The method `Get` of the client. -/
def Get (c : Client) (world : World) (key : GoString) (timeout : Int) (fuel : Nat) :
    Option Submitted :=
  c.submitOperation world .Get
    { Key := key, Value := [], Client := c.id, SequenceNumber := c.sequenceNumber } timeout fuel

/-- The method `Put` of the client. -/
def Put (c : Client) (world : World) (key value : GoString) (timeout : Int) (fuel : Nat) :
    Option Submitted :=
  c.submitOperation world .Put
    { Key := key, Value := value, Client := c.id, SequenceNumber := c.sequenceNumber }
    timeout fuel

end Client

/-- One call of `Get` or `Put` on a client, with its arguments and the world it
runs in. -/
structure ClientCall where
  rpc : Rpc
  key : GoString
  value : GoString
  timeout : Int
  world : World
  fuel : Nat

/-- The call `call` made on the client `c`. -/
def ClientCall.run (call : ClientCall) (c : Client) : Option Submitted :=
  match call.rpc with
  | .Get => c.Get call.world call.key call.timeout call.fuel
  | .Put => c.Put call.world call.key call.value call.timeout call.fuel

/-- A sequence of calls on a client, each of which returns: the client afterwards
and, call by call, the per-node calls made. -/
def runCalls : Client → List ClientCall → Option (Client × List (List Attempt))
  | c, [] => some (c, [])
  | c, call :: rest =>
    match call.run c with
    | none => none
    | some r =>
      match runCalls r.client rest with
      | none => none
      | some (c', traces) => some (c', r.attempts :: traces)

/-- None of the per-node calls recorded in `attempts` succeeded: the world answered
each of them, the `i`-th call of the run, with an error. -/
def AllFailed (world : World) (attempts : List Attempt) : Prop :=
  ∀ i a, attempts[i]? = some a → world.call i a.node a.rpc a.request = none

/-- Every call recorded in `attempts` is the call `rpc` with the request `request`. -/
def AllSend (rpc : Rpc) (request : Request) (attempts : List Attempt) : Prop :=
  ∀ a ∈ attempts, a.rpc = rpc ∧ a.request = request

/-- A world in which the clock reads `elapsed` at every test and the three nodes
are visited in the order `a`, `b`, `c`; `a` answers every call with an error, `b`
with the value `"y"`, `c` with an error. -/
def testWorld (elapsed : Int) : World :=
  { since := fun _ => elapsed,
    order := fun _ => [goString "a", goString "b", goString "c"],
    call := fun _ id _ _ => if id = goString "b" then some (goString "y") else none }

/-- A world in which the clock advances by 40 ms from one test to the next and
every node answers every call with an error. -/
def failingWorld : World :=
  { since := fun n => 40000000 * n,
    order := fun _ => [goString "a", goString "b", goString "c"],
    call := fun _ _ _ _ => none }

/-- A world in which the clock stands at 0 and the two nodes are visited in the
order `a`, `""`; `a` answers every call with an error, the node whose ID is the
empty string with the value `"y"`. -/
def emptyIDWorld : World :=
  { since := fun _ => 0,
    order := fun _ => [goString "a", []],
    call := fun _ id _ _ => if id = [] then some (goString "y") else none }

/-- A client of the three nodes `a`, `b`, `c` with the given sequence number and
leader ID. -/
def testClient (sequenceNumber : Nat) (leaderID : GoString) : Client :=
  { id := 7, sequenceNumber := sequenceNumber, leaderID := leaderID, nodes := .nil,
    clients := [goString "a", goString "b", goString "c"] }

/-- The nodes `a`, `b` and `c` with their addresses, as `ParseCluster` yields
them. -/
def testNodes : GoMap GoString GoString :=
  (ParseCluster [goString "a:1", goString "b:2", goString "c:3"]).1

/-- The client that `NewClient` makes for these nodes when the UUID reads 7 and
every dial succeeds. -/
def newTestClient : Client :=
  { id := 7, sequenceNumber := 0, leaderID := [], nodes := testNodes,
    clients := testNodes.entries.map (fun e => e.1) }

/-- Two calls with a timeout of 100 ms in a world whose clock stands at 0 and in
which only `b` answers: a `Get` of `"x"`, then a `Put` of `"x"` to `"y"`. -/
def testCalls : List ClientCall :=
  [{ rpc := .Get, key := goString "x", value := [], timeout := 100000000,
     world := testWorld 0, fuel := 1 },
   { rpc := .Put, key := goString "x", value := goString "y", timeout := 100000000,
     world := testWorld 0, fuel := 1 }]

/-- Two stores hold the same entries: every key and every client reads the same in
both, whatever the order in which the tables hold them and whether a table
without entries is `nil` or allocated. -/
def SameEntries (a b : KeyValueStore) : Prop :=
  (∀ k, a.keyValueTable.lookup k = b.keyValueTable.lookup k) ∧
  (∀ c, a.sessionTable.lookup c = b.sessionTable.lookup c)

/-! # Properties -/

/-! ## Go maps: reading after writing -/

namespace GoMap

variable {K V : Type} [DecidableEq K]

theorem lookup_assign {m m' : GoMap K V} {k : K} {v : V} (h : m.assign k v = some m')
    (k' : K) : m'.lookup k' = if k' = k then some v else m.lookup k' := by
  cases m with
  | nil => simp [assign] at h
  | allocated t =>
    simp only [assign, Option.some.injEq] at h
    subst h
    by_cases hk : k' = k
    · subst hk; simp [lookup]
    · simp [lookup, hk, AList.lookup_insert_ne hk]

theorem assign_isSome_of_allocated {m : GoMap K V} (h : m.isAllocated = true) (k : K)
    (v : V) : ∃ m', m.assign k v = some m' ∧ m'.isAllocated = true := by
  cases m with
  | nil => simp [isAllocated] at h
  | allocated t => exact ⟨_, rfl, rfl⟩

theorem isAllocated_of_lookup {m : GoMap K V} {k : K} {v : V} (h : m.lookup k = some v) :
    m.isAllocated = true := by
  cases m with
  | nil => simp [lookup] at h
  | allocated t => rfl

theorem lookup_writeThrough {m : GoMap K V} (h : m.isAllocated = true) (k : K) (v : V)
    (k' : K) : (m.writeThrough k v).lookup k' = if k' = k then some v else m.lookup k' := by
  cases m with
  | nil => simp [isAllocated] at h
  | allocated t =>
    by_cases hk : k' = k
    · subst hk; simp [lookup, writeThrough]
    · simp [lookup, writeThrough, hk, AList.lookup_insert_ne hk]

theorem isAllocated_writeThrough (m : GoMap K V) (k : K) (v : V) :
    (m.writeThrough k v).isAllocated = m.isAllocated := by
  cases m <;> rfl

end GoMap

namespace KeyValueStore

theorem Apply_duplicate (kv : KeyValueStore) (operation : Operation) (request : Request)
    (session : Session)
    (hdec : unmarshalRequest operation.Bytes = some request)
    (hsession : kv.sessionTable.lookup request.Client = some session)
    (hseq : session.SequenceNumber ≥ request.SequenceNumber) :
    kv.Apply operation = (kv, .response ⟨session.LastResult⟩) := by
  simp [Apply, hdec, hsession, hseq]


theorem Put_allocated (kv : KeyValueStore) (h : kv.keyValueTable.isAllocated = true)
    (key value : GoString) :
    ∃ t, kv.keyValueTable.assign key value = some t ∧ t.isAllocated = true ∧
      kv.Put key value = some ({ kv with keyValueTable := t }, value) := by
  obtain ⟨t, ht, hta⟩ := GoMap.assign_isSome_of_allocated h key value
  exact ⟨t, ht, hta, by simp [Put, ht]⟩

/-- A fresh write on a store with allocated tables: the response, the store
afterwards read key by key and client by client. -/
theorem Apply_fresh_write {kv : KeyValueStore} {operation : Operation} {request : Request}
    (hdec : unmarshalRequest operation.Bytes = some request)
    (hkind : operation.OperationType = .Replicated)
    (hfresh : Fresh kv request) (halloc : Allocated kv) :
    ∃ kv', kv.Apply operation = (kv', .response ⟨request.Value⟩) ∧ Allocated kv' ∧
      (∀ k, kv'.keyValueTable.lookup k
        = if k = request.Key then some request.Value else kv.keyValueTable.lookup k) ∧
      (∀ c, kv'.sessionTable.lookup c
        = if c = request.Client then some ⟨request.SequenceNumber, request.Value⟩
          else kv.sessionTable.lookup c) := by
  obtain ⟨hk, hs⟩ := halloc
  cases hlook : kv.sessionTable.lookup request.Client with
  | some session =>
    have hlt := hfresh session hlook
    obtain ⟨t, ht, hta, hput⟩ := Put_allocated kv hk request.Key request.Value
    refine ⟨⟨t, kv.sessionTable.writeThrough request.Client
      ⟨request.SequenceNumber, request.Value⟩⟩, ?_, ?_, ?_, ?_⟩
    · simp [Apply, hdec, hlook, Nat.not_le.mpr hlt, applyEffect, hkind, hput]
    · exact ⟨hta, by simp [GoMap.isAllocated_writeThrough, hs]⟩
    · intro k; exact GoMap.lookup_assign ht k
    · intro c; exact GoMap.lookup_writeThrough hs _ _ c
  | none =>
    obtain ⟨st, hst, hsta⟩ := GoMap.assign_isSome_of_allocated hs request.Client ({} : Session)
    obtain ⟨t, ht, hta, hput⟩ :=
      Put_allocated { kv with sessionTable := st } hk request.Key request.Value
    refine ⟨⟨t, st.writeThrough request.Client
      ⟨request.SequenceNumber, request.Value⟩⟩, ?_, ?_, ?_, ?_⟩
    · simp [Apply, hdec, hlook, hst, applyEffect, hkind, hput]
    · exact ⟨hta, by simp [GoMap.isAllocated_writeThrough, hsta]⟩
    · intro k; exact GoMap.lookup_assign ht k
    · intro c
      show (st.writeThrough _ _).lookup c = _
      rw [GoMap.lookup_writeThrough hsta, GoMap.lookup_assign hst]
      by_cases hc : c = request.Client <;> simp [hc, hlook]

/-- A fresh read on a store whose session table is allocated: the response is what
`Get` finds, the key-value table is the same, the session is written. -/
theorem Apply_fresh_read {kv : KeyValueStore} {operation : Operation} {request : Request}
    (hdec : unmarshalRequest operation.Bytes = some request)
    (hkind : operation.OperationType = .LinearizableReadOnly)
    (hfresh : Fresh kv request) (hs : kv.sessionTable.isAllocated = true) :
    ∃ kv', kv.Apply operation = (kv', .response ⟨kv.Get request.Key⟩) ∧
      kv'.keyValueTable = kv.keyValueTable ∧ kv'.sessionTable.isAllocated = true ∧
      (∀ c, kv'.sessionTable.lookup c
        = if c = request.Client then some ⟨request.SequenceNumber, kv.Get request.Key⟩
          else kv.sessionTable.lookup c) := by
  cases hlook : kv.sessionTable.lookup request.Client with
  | some session =>
    have hlt := hfresh session hlook
    refine ⟨⟨kv.keyValueTable, kv.sessionTable.writeThrough request.Client
      ⟨request.SequenceNumber, kv.Get request.Key⟩⟩, ?_, rfl, ?_, ?_⟩
    · simp [Apply, hdec, hlook, Nat.not_le.mpr hlt, applyEffect, hkind, Get]
    · simp [GoMap.isAllocated_writeThrough, hs]
    · intro c; exact GoMap.lookup_writeThrough hs _ _ c
  | none =>
    obtain ⟨st, hst, hsta⟩ := GoMap.assign_isSome_of_allocated hs request.Client ({} : Session)
    refine ⟨⟨kv.keyValueTable, st.writeThrough request.Client
      ⟨request.SequenceNumber, kv.Get request.Key⟩⟩, ?_, rfl, ?_, ?_⟩
    · simp [Apply, hdec, hlook, hst, applyEffect, hkind, Get]
    · simp [GoMap.isAllocated_writeThrough, hsta]
    · intro c
      show (st.writeThrough _ _).lookup c = _
      rw [GoMap.lookup_writeThrough hsta, GoMap.lookup_assign hst]
      by_cases hc : c = request.Client <;> simp [hc, hlook]

theorem Apply_undecodable {kv : KeyValueStore} {operation : Operation}
    (hdec : unmarshalRequest operation.Bytes = none) :
    kv.Apply operation = (kv, .fatal) := by
  simp [Apply, hdec]

theorem Apply_session_behind {kv : KeyValueStore} {operation : Operation} {request : Request}
    {session : Session} (hdec : unmarshalRequest operation.Bytes = some request)
    (hlook : kv.sessionTable.lookup request.Client = some session)
    (hseq : session.SequenceNumber < request.SequenceNumber) :
    kv.Apply operation = kv.applyEffect operation.OperationType request := by
  simp [Apply, hdec, hlook, Nat.not_le.mpr hseq]

theorem Apply_no_session {kv : KeyValueStore} {operation : Operation} {request : Request}
    {st : GoMap Nat Session} (hdec : unmarshalRequest operation.Bytes = some request)
    (hlook : kv.sessionTable.lookup request.Client = none)
    (hst : kv.sessionTable.assign request.Client {} = some st) :
    kv.Apply operation
      = applyEffect { kv with sessionTable := st } operation.OperationType request := by
  simp [Apply, hdec, hlook, hst]

/-- The effect step leaves every session as it is or writes the session of the
client of the request with the sequence number of the request. -/
theorem applyEffect_session (kv : KeyValueStore) (operationType : OperationType)
    (request : Request) (hs : kv.sessionTable.isAllocated = true) (c : Nat) :
    (kv.applyEffect operationType request).1.sessionTable.lookup c = kv.sessionTable.lookup c ∨
      (c = request.Client ∧ ∃ v, (kv.applyEffect operationType request).1.sessionTable.lookup c
        = some ⟨request.SequenceNumber, v⟩) := by
  unfold applyEffect
  by_cases hkind : operationType = .Replicated
  · cases hput : kv.Put request.Key request.Value with
    | none => left; simp [hkind, hput]
    | some p =>
      obtain ⟨kv', value⟩ := p
      have hst : kv'.sessionTable = kv.sessionTable := by
        unfold Put at hput
        cases hassign : kv.keyValueTable.assign request.Key request.Value with
        | none => simp [hassign] at hput
        | some t =>
          simp only [hassign, Option.some.injEq, Prod.mk.injEq] at hput
          rw [← hput.1]
      simp only [hkind, hput, if_true]
      rw [hst, GoMap.lookup_writeThrough hs]
      by_cases hc : c = request.Client
      · right; exact ⟨hc, value, by simp [hc]⟩
      · left; simp [hc]
  · simp only [hkind, if_false]
    rw [GoMap.lookup_writeThrough hs]
    by_cases hc : c = request.Client
    · right; exact ⟨hc, kv.Get request.Key, by simp [hc]⟩
    · left; simp [hc]

/-- One call of `Apply`, however it ends, keeps every session and does not lower
its sequence number. -/
theorem Apply_session_mono (kv : KeyValueStore) (operation : Operation) (c : Nat)
    (s : Session) (h : kv.sessionTable.lookup c = some s) :
    ∃ s', (kv.Apply operation).1.sessionTable.lookup c = some s' ∧
      s.SequenceNumber ≤ s'.SequenceNumber := by
  have hs : kv.sessionTable.isAllocated = true := GoMap.isAllocated_of_lookup h
  cases hdec : unmarshalRequest operation.Bytes with
  | none => rw [Apply_undecodable hdec]; exact ⟨s, h, le_refl _⟩
  | some request =>
    cases hlook : kv.sessionTable.lookup request.Client with
    | some session =>
      by_cases hseq : session.SequenceNumber ≥ request.SequenceNumber
      · rw [Apply_duplicate kv operation request session hdec hlook hseq]
        exact ⟨s, h, le_refl _⟩
      · rw [Apply_session_behind hdec hlook (Nat.lt_of_not_le hseq)]
        rcases applyEffect_session kv operation.OperationType request hs c with hsame | ⟨hc, v, hv⟩
        · exact ⟨s, by rw [hsame, h], le_refl _⟩
        · refine ⟨_, hv, ?_⟩
          subst hc
          rw [h] at hlook
          cases hlook
          simp only
          omega
    | none =>
      obtain ⟨st, hst, hsta⟩ := GoMap.assign_isSome_of_allocated hs request.Client ({} : Session)
      rw [Apply_no_session hdec hlook hst]
      have hne : c ≠ request.Client := by
        intro hc; subst hc; rw [h] at hlook; cases hlook
      rcases applyEffect_session { kv with sessionTable := st } operation.OperationType request
        hsta c with hsame | ⟨hc, _⟩
      · refine ⟨s, ?_, le_refl _⟩
        rw [hsame]
        show st.lookup c = some s
        rw [GoMap.lookup_assign hst, if_neg hne, h]
      · exact absurd hc hne

/-- Along a sequence of `Apply` calls every session is kept and its sequence number
does not go down. -/
theorem applyAll_session_mono (operations : List Operation) :
    ∀ (kv kv' : KeyValueStore) (responses : List Response) (c : Nat) (s : Session),
      kv.applyAll operations = some (kv', responses) →
      kv.sessionTable.lookup c = some s →
      ∃ s', kv'.sessionTable.lookup c = some s' ∧ s.SequenceNumber ≤ s'.SequenceNumber := by
  induction operations with
  | nil =>
    intro kv kv' responses c s hrun h
    simp only [applyAll, Option.some.injEq, Prod.mk.injEq] at hrun
    rw [← hrun.1]; exact ⟨s, h, le_refl _⟩
  | cons operation rest ih =>
    intro kv kv' responses c s hrun h
    obtain ⟨s1, h1, hle1⟩ := Apply_session_mono kv operation c s h
    unfold applyAll at hrun
    cases hstep : kv.Apply operation with
    | mk kv1 outcome =>
      rw [hstep] at hrun h1
      cases outcome with
      | response r =>
        simp only at hrun
        cases hrest : kv1.applyAll rest with
        | none => simp [hrest] at hrun
        | some p =>
          obtain ⟨kv2, rs⟩ := p
          simp only [hrest, Option.some.injEq, Prod.mk.injEq] at hrun
          obtain ⟨s2, h2, hle2⟩ := ih kv1 kv2 rs c s1 hrest h1
          rw [← hrun.1]
          exact ⟨s2, h2, le_trans hle1 hle2⟩
      | fatal => simp at hrun
      | panic => simp at hrun

/-- When the effect step returns a response, the session of the client holds the
sequence number of the request and the value of the response. -/
theorem applyEffect_response {kv kv1 : KeyValueStore} {operationType : OperationType}
    {request : Request} {resp : Response} (hs : kv.sessionTable.isAllocated = true)
    (h : kv.applyEffect operationType request = (kv1, .response resp)) :
    kv1.sessionTable.lookup request.Client = some ⟨request.SequenceNumber, resp.Value⟩ := by
  unfold applyEffect at h
  by_cases hkind : operationType = .Replicated
  · cases hput : kv.Put request.Key request.Value with
    | none => simp [hkind, hput] at h
    | some p =>
      obtain ⟨kv', value⟩ := p
      have hst : kv'.sessionTable = kv.sessionTable := by
        unfold Put at hput
        cases hassign : kv.keyValueTable.assign request.Key request.Value with
        | none => simp [hassign] at hput
        | some t =>
          simp only [hassign, Option.some.injEq, Prod.mk.injEq] at hput
          rw [← hput.1]
      simp only [hkind, hput, if_true, Prod.mk.injEq, ApplyOutcome.response.injEq] at h
      obtain ⟨h1, h2⟩ := h
      rw [← h1, ← h2]
      show (kv'.sessionTable.writeThrough _ _).lookup _ = _
      rw [hst, GoMap.lookup_writeThrough hs]
      simp
  · simp only [hkind, if_false, Prod.mk.injEq, ApplyOutcome.response.injEq] at h
    obtain ⟨h1, h2⟩ := h
    rw [← h1, ← h2]
    show (kv.sessionTable.writeThrough _ _).lookup _ = _
    rw [GoMap.lookup_writeThrough hs]
    simp

/-- A request that is executed (not answered from the session) and returns leaves
its sequence number and its result in the session of its client. -/
theorem Apply_fresh_response {kv kv1 : KeyValueStore} {operation : Operation}
    {request : Request} {resp : Response}
    (hdec : unmarshalRequest operation.Bytes = some request) (hfresh : Fresh kv request)
    (h : kv.Apply operation = (kv1, .response resp)) :
    kv1.sessionTable.lookup request.Client = some ⟨request.SequenceNumber, resp.Value⟩ := by
  cases hlook : kv.sessionTable.lookup request.Client with
  | some session =>
    rw [Apply_session_behind hdec hlook (hfresh session hlook)] at h
    exact applyEffect_response (GoMap.isAllocated_of_lookup hlook) h
  | none =>
    cases hst : kv.sessionTable.assign request.Client ({} : Session) with
    | none => simp [Apply, hdec, hlook, hst] at h
    | some st =>
      rw [Apply_no_session hdec hlook hst] at h
      have hsta : st.isAllocated = true := by
        cases hk : kv.sessionTable with
        | nil => simp [hk, GoMap.assign] at hst
        | allocated t =>
          simp only [hk, GoMap.assign, Option.some.injEq] at hst
          rw [← hst]; rfl
      exact applyEffect_response hsta h

/-- A call of `Apply` leaves a session as it is unless the request is one of that
client with a larger sequence number. -/
theorem Apply_session_unchanged (kv : KeyValueStore) (operation : Operation) (c : Nat)
    (s : Session) (h : kv.sessionTable.lookup c = some s)
    (hother : ∀ request, unmarshalRequest operation.Bytes = some request →
      request.Client = c → request.SequenceNumber ≤ s.SequenceNumber) :
    (kv.Apply operation).1.sessionTable.lookup c = some s := by
  have hs : kv.sessionTable.isAllocated = true := GoMap.isAllocated_of_lookup h
  cases hdec : unmarshalRequest operation.Bytes with
  | none => rw [Apply_undecodable hdec]; exact h
  | some request =>
    cases hlook : kv.sessionTable.lookup request.Client with
    | some session =>
      by_cases hseq : session.SequenceNumber ≥ request.SequenceNumber
      · rw [Apply_duplicate kv operation request session hdec hlook hseq]
        exact h
      · rw [Apply_session_behind hdec hlook (Nat.lt_of_not_le hseq)]
        rcases applyEffect_session kv operation.OperationType request hs c with hsame | ⟨hc, v, hv⟩
        · rw [hsame, h]
        · exfalso
          have hle := hother request hdec hc.symm
          subst hc
          rw [h] at hlook
          cases hlook
          exact hseq hle
    | none =>
      obtain ⟨st, hst, hsta⟩ := GoMap.assign_isSome_of_allocated hs request.Client ({} : Session)
      rw [Apply_no_session hdec hlook hst]
      have hne : c ≠ request.Client := by
        intro hc; subst hc; rw [h] at hlook; cases hlook
      rcases applyEffect_session { kv with sessionTable := st } operation.OperationType request
        hsta c with hsame | ⟨hc, _⟩
      · rw [hsame]
        show st.lookup c = some s
        rw [GoMap.lookup_assign hst, if_neg hne, h]
      · exact absurd hc hne

/-- Along a sequence of calls none of which is a request of client `c` with a larger
sequence number, the session of `c` stays as it is. -/
theorem applyAll_session_unchanged (operations : List Operation) :
    ∀ (kv kv' : KeyValueStore) (responses : List Response) (c : Nat) (s : Session),
      kv.applyAll operations = some (kv', responses) →
      kv.sessionTable.lookup c = some s →
      (∀ operation ∈ operations, ∀ request, unmarshalRequest operation.Bytes = some request →
        request.Client = c → request.SequenceNumber ≤ s.SequenceNumber) →
      kv'.sessionTable.lookup c = some s := by
  induction operations with
  | nil =>
    intro kv kv' responses c s hrun h _
    simp only [applyAll, Option.some.injEq, Prod.mk.injEq] at hrun
    rw [← hrun.1]; exact h
  | cons operation rest ih =>
    intro kv kv' responses c s hrun h hother
    have h1 := Apply_session_unchanged kv operation c s h
      (hother operation (List.mem_cons_self _ _))
    unfold applyAll at hrun
    cases hstep : kv.Apply operation with
    | mk kv1 outcome =>
      rw [hstep] at hrun h1
      cases outcome with
      | response r =>
        simp only at hrun
        cases hrest : kv1.applyAll rest with
        | none => simp [hrest] at hrun
        | some p =>
          obtain ⟨kv2, rs⟩ := p
          simp only [hrest, Option.some.injEq, Prod.mk.injEq] at hrun
          rw [← hrun.1]
          exact ih kv1 kv2 rs c s hrest h1
            (fun o ho => hother o (List.mem_cons_of_mem _ ho))
      | fatal => simp at hrun
      | panic => simp at hrun

/-- With both tables allocated every operation that decodes is answered with a
response, and the tables stay allocated. -/
theorem Apply_allocated {kv : KeyValueStore} {operation : Operation} {request : Request}
    (hdec : unmarshalRequest operation.Bytes = some request) (halloc : Allocated kv) :
    ∃ kv' resp, kv.Apply operation = (kv', .response resp) ∧ Allocated kv' := by
  by_cases hfresh : Fresh kv request
  · cases hkind : operation.OperationType with
    | Replicated =>
      obtain ⟨kv', h, ha, _⟩ := Apply_fresh_write hdec hkind hfresh halloc
      exact ⟨kv', _, h, ha⟩
    | LinearizableReadOnly =>
      obtain ⟨kv', h, hk, hs, _⟩ := Apply_fresh_read hdec hkind hfresh halloc.2
      exact ⟨kv', _, h, by rw [Allocated, hk]; exact ⟨halloc.1, hs⟩⟩
  · simp only [Fresh, not_forall, Nat.not_lt] at hfresh
    obtain ⟨session, hlook, hseq⟩ := hfresh
    exact ⟨kv, _, Apply_duplicate kv operation request session hdec hlook hseq, halloc⟩

/-- Applying an operation a second time right after the first, on a store with
allocated tables: the same response, and the second call changes nothing. -/
theorem Apply_twice_allocated {kv : KeyValueStore} {operation : Operation} {request : Request}
    (hdec : unmarshalRequest operation.Bytes = some request) (halloc : Allocated kv) :
    ∃ kv' resp, kv.Apply operation = (kv', .response resp) ∧
      kv'.Apply operation = (kv', .response resp) := by
  by_cases hfresh : Fresh kv request
  · obtain ⟨kv', resp, h, _⟩ := Apply_allocated hdec halloc
    have hsession := Apply_fresh_response hdec hfresh h
    exact ⟨kv', resp, h,
      Apply_duplicate kv' operation request _ hdec hsession (le_refl _)⟩
  · simp only [Fresh, not_forall, Nat.not_lt] at hfresh
    obtain ⟨session, hlook, hseq⟩ := hfresh
    have h := Apply_duplicate kv operation request session hdec hlook hseq
    exact ⟨kv, _, h, h⟩

/-- On a store whose key-value table is allocated `Put` returns the value, `Get` of
the key then finds it, and `Get` of every other key finds what it found before. -/
theorem Put_Get_allocated (kv : KeyValueStore) (h : kv.keyValueTable.isAllocated = true)
    (key value : GoString) :
    ∃ kv', kv.Put key value = some (kv', value) ∧ kv'.Get key = value ∧
      ∀ k, k ≠ key → kv'.Get k = kv.Get k := by
  obtain ⟨t, ht, _, hput⟩ := Put_allocated kv h key value
  refine ⟨_, hput, ?_, ?_⟩
  · simp [Get, GoMap.lookup_assign ht]
  · intro k hk
    simp [Get, GoMap.lookup_assign ht, hk]

/-- Every store that `Apply` calls lead to from the new store has both tables
allocated. -/
theorem applyAll_allocated (operations : List Operation) :
    ∀ (kv kv' : KeyValueStore) (responses : List Response),
      kv.applyAll operations = some (kv', responses) → Allocated kv → Allocated kv' := by
  induction operations with
  | nil =>
    intro kv kv' responses hrun h
    simp only [applyAll, Option.some.injEq, Prod.mk.injEq] at hrun
    rw [← hrun.1]; exact h
  | cons operation rest ih =>
    intro kv kv' responses hrun h
    unfold applyAll at hrun
    cases hdec : unmarshalRequest operation.Bytes with
    | none => simp [Apply_undecodable hdec] at hrun
    | some request =>
      obtain ⟨kv1, resp, hstep, ha⟩ := Apply_allocated hdec h
      rw [hstep] at hrun
      simp only at hrun
      cases hrest : kv1.applyAll rest with
      | none => simp [hrest] at hrun
      | some p =>
        obtain ⟨kv2, rs⟩ := p
        simp only [hrest, Option.some.injEq, Prod.mk.injEq] at hrun
        rw [← hrun.1]
        exact ih kv1 kv2 rs hrest ha

end KeyValueStore

/-! ## The codec: reading back what was written -/

theorem consumeVarint_putVarintFuel (fuel : Nat) :
    ∀ (v : Nat) (rest : Bytes), v < 128 ^ (fuel + 1) →
      consumeVarint (putVarintFuel (fuel + 1) v ++ rest) = some (v, rest) := by
  induction fuel with
  | zero =>
    intro v rest h
    have hv : v < 128 := by simpa using h
    have hb : (UInt8.ofNat v).toNat = v := by
      show v % 256 = v
      omega
    simp [putVarintFuel, hv, consumeVarint, hb]
  | succ fuel ih =>
    intro v rest h
    by_cases hv : v < 128
    · have hb : (UInt8.ofNat v).toNat = v := by
        show v % 256 = v
        omega
      simp [putVarintFuel, hv, consumeVarint, hb]
    · have hb : (UInt8.ofNat (v % 128 + 128)).toNat = v % 128 + 128 := by
        show (v % 128 + 128) % 256 = v % 128 + 128
        omega
      have hdiv : v / 128 < 128 ^ (fuel + 1) := by
        rw [Nat.div_lt_iff_lt_mul (by norm_num)]
        calc v < 128 ^ (fuel + 1 + 1) := h
          _ = 128 ^ (fuel + 1) * 128 := by rw [pow_succ]
      have hrec := ih (v / 128) rest hdiv
      rw [putVarintFuel, if_neg hv, List.cons_append, consumeVarint, hb]
      have hnot : ¬ (v % 128 + 128 < 128) := by omega
      rw [if_neg hnot, hrec]
      simp only [Option.some.injEq, Prod.mk.injEq, and_true]
      omega

theorem consumeVarint_appendVarint (v : Nat) (rest : Bytes) :
    consumeVarint (appendVarint v ++ rest) = some (v, rest) := by
  apply consumeVarint_putVarintFuel
  calc v < 128 ^ v := Nat.lt_pow_self (by norm_num) v
    _ ≤ 128 ^ (v + 1) := Nat.pow_le_pow_right (by norm_num) (Nat.le_succ v)

theorem appendVarint_ne_nil (v : Nat) : appendVarint v ≠ [] := by
  unfold appendVarint putVarintFuel
  split <;> simp

theorem takeBytes_append (b rest : Bytes) : takeBytes b.length (b ++ rest) = some (b, rest) := by
  simp [takeBytes]

theorem consumeField_encodeBytesField (num : Nat) (b rest : Bytes) (h0 : 0 < num)
    (h1 : num < 2 ^ 29) :
    consumeField (encodeBytesField num b ++ rest) = some (⟨num, .bytes b⟩, rest) := by
  have hdiv : (num * 8 + 2) / 8 = num := by omega
  have hmod : (num * 8 + 2) % 8 = 2 := by omega
  have hnot : ¬ (num = 0 ∨ 2 ^ 29 ≤ num) := by omega
  unfold consumeField encodeBytesField encodeTag
  rw [List.append_assoc, List.append_assoc, consumeVarint_appendVarint]
  simp only [hdiv, hmod, hnot, if_false]
  rw [consumeVarint_appendVarint]
  simp only [takeBytes_append]

theorem consumeField_encodeVarintField (num v : Nat) (rest : Bytes) (h0 : 0 < num)
    (h1 : num < 2 ^ 29) (hv : v < 2 ^ 64) :
    consumeField (encodeVarintField num v ++ rest) = some (⟨num, .varint v⟩, rest) := by
  have hdiv : (num * 8 + 0) / 8 = num := by omega
  have hmod : (num * 8 + 0) % 8 = 0 := by omega
  have hnot : ¬ (num = 0 ∨ 2 ^ 29 ≤ num) := by omega
  unfold consumeField encodeVarintField encodeTag
  rw [List.append_assoc, consumeVarint_appendVarint]
  simp only [hdiv, hmod, hnot, if_false]
  rw [consumeVarint_appendVarint]
  simp only [hv, if_true]

theorem encodeBytesField_ne_nil (num : Nat) (b : Bytes) : encodeBytesField num b ≠ [] := by
  unfold encodeBytesField encodeTag
  simp [appendVarint_ne_nil]

theorem encodeVarintField_ne_nil (num v : Nat) : encodeVarintField num v ≠ [] := by
  unfold encodeVarintField encodeTag
  simp [appendVarint_ne_nil]

/-- One more field in front of bytes that parse: the whole parses, with any fuel
that covers its length. -/
theorem consumeFields_cons {x rest : Bytes} {f : WireField} {fs : List WireField}
    (hx : consumeField (x ++ rest) = some (f, rest)) (hne : x ≠ [])
    (hrest : ∀ fuel, rest.length ≤ fuel → consumeFields fuel rest = some fs) :
    ∀ fuel, (x ++ rest).length ≤ fuel → consumeFields fuel (x ++ rest) = some (f :: fs) := by
  intro fuel hfuel
  cases x with
  | nil => exact absurd rfl hne
  | cons b bs =>
    cases fuel with
    | zero => simp at hfuel
    | succ n =>
      have hlen : rest.length ≤ n := by
        simp only [List.cons_append, List.length_cons, List.length_append] at hfuel
        omega
      rw [List.cons_append] at hx ⊢
      rw [consumeFields, hx]
      simp only [hrest n hlen]

theorem consumeFields_nil (fuel : Nat) : consumeFields fuel [] = some [] := by
  cases fuel <;> rfl

theorem foldlM_append_some {α β : Type} (f : β → α → Option β) (l l' : List α) (b b' : β)
    (h : l.foldlM f b = some b') : (l ++ l').foldlM f b = l'.foldlM f b' := by
  rw [List.foldlM_append, h]
  rfl

/-- A marshalled session parses, and merging its fields into the zero session
gives the session back. -/
theorem marshalSession_roundtrip {s : Session} {b : Bytes} (h : marshalSession s = some b)
    (hseq : s.SequenceNumber < 2 ^ 64) :
    ∃ fs, (∀ fuel, b.length ≤ fuel → consumeFields fuel b = some fs) ∧
      fs.foldlM Session.mergeField {} = some s := by
  obtain ⟨n, r⟩ := s
  unfold marshalSession at h
  by_cases hv : utf8Valid r = true
  · simp only [hv, if_true, Option.some.injEq] at h
    subst h
    have hr : ∀ fuel, ([] : Bytes).length ≤ fuel → consumeFields fuel [] = some [] :=
      fun fuel _ => consumeFields_nil fuel
    by_cases hn : n = 0
    · by_cases hr0 : r = []
      · subst hn; subst hr0
        exact ⟨[], by simpa using hr, rfl⟩
      · subst hn
        refine ⟨[⟨2, .bytes r⟩], ?_, ?_⟩
        · have := consumeFields_cons
            (consumeField_encodeBytesField 2 r [] (by norm_num) (by norm_num))
            (encodeBytesField_ne_nil 2 r) hr
          simpa [hr0] using this
        · simp [List.foldlM, Session.mergeField, hv]
    · by_cases hr0 : r = []
      · subst hr0
        refine ⟨[⟨1, .varint n⟩], ?_, ?_⟩
        · have := consumeFields_cons
            (consumeField_encodeVarintField 1 n [] (by norm_num) (by norm_num) hseq)
            (encodeVarintField_ne_nil 1 n) hr
          simpa [hn] using this
        · simp [List.foldlM, Session.mergeField]
      · refine ⟨[⟨1, .varint n⟩, ⟨2, .bytes r⟩], ?_, ?_⟩
        · have h2 := consumeFields_cons
            (consumeField_encodeBytesField 2 r [] (by norm_num) (by norm_num))
            (encodeBytesField_ne_nil 2 r) hr
          have h1 := consumeFields_cons
            (consumeField_encodeVarintField 1 n (encodeBytesField 2 r ++ [])
              (by norm_num) (by norm_num) hseq)
            (encodeVarintField_ne_nil 1 n) h2
          simpa [hn, hr0] using h1
        · simp [List.foldlM, Session.mergeField, hv]
  · simp [hv] at h

/-- A marshalled entry of the key-value table parses back to the entry. -/
theorem marshalStringEntry_roundtrip {e : GoString × GoString} {b : Bytes}
    (h : marshalStringEntry e = some b) :
    ∃ fs, parseMessage b = some fs ∧ fs.foldlM mergeStringEntry ([], []) = some e := by
  obtain ⟨k, v⟩ := e
  unfold marshalStringEntry at h
  by_cases hv : (utf8Valid k && utf8Valid v) = true
  · simp only [hv, if_true, Option.some.injEq] at h
    subst h
    simp only [Bool.and_eq_true] at hv
    have hr : ∀ fuel, ([] : Bytes).length ≤ fuel → consumeFields fuel [] = some [] :=
      fun fuel _ => consumeFields_nil fuel
    have h2 := consumeFields_cons
      (consumeField_encodeBytesField 2 v [] (by norm_num) (by norm_num))
      (encodeBytesField_ne_nil 2 v) hr
    have h1 := consumeFields_cons
      (consumeField_encodeBytesField 1 k (encodeBytesField 2 v ++ [])
        (by norm_num) (by norm_num))
      (encodeBytesField_ne_nil 1 k) h2
    refine ⟨[⟨1, .bytes k⟩, ⟨2, .bytes v⟩], ?_, ?_⟩
    · have := h1 _ (le_refl _)
      simpa [parseMessage] using this
    · simp [List.foldlM, mergeStringEntry, hv.1, hv.2]
  · simp [hv] at h

/-- A marshalled entry of the session table parses back to the entry. -/
theorem marshalSessionEntry_roundtrip {e : Nat × Session} {b : Bytes}
    (h : marshalSessionEntry e = some b) (hc : e.1 < 2 ^ 32)
    (hseq : e.2.SequenceNumber < 2 ^ 64) :
    ∃ fs, parseMessage b = some fs ∧ fs.foldlM mergeSessionEntry (0, {}) = some e := by
  obtain ⟨c, s⟩ := e
  unfold marshalSessionEntry at h
  cases hs : marshalSession s with
  | none => simp [hs] at h
  | some sb =>
    simp only [hs, Option.some.injEq] at h
    subst h
    obtain ⟨sfs, hparse, hmerge⟩ := marshalSession_roundtrip hs hseq
    have hr : ∀ fuel, ([] : Bytes).length ≤ fuel → consumeFields fuel [] = some [] :=
      fun fuel _ => consumeFields_nil fuel
    have h2 := consumeFields_cons
      (consumeField_encodeBytesField 2 sb [] (by norm_num) (by norm_num))
      (encodeBytesField_ne_nil 2 sb) hr
    have h1 := consumeFields_cons
      (consumeField_encodeVarintField 1 c (encodeBytesField 2 sb ++ [])
        (by norm_num) (by norm_num) (lt_trans hc (by norm_num)))
      (encodeVarintField_ne_nil 1 c) h2
    refine ⟨[⟨1, .varint c⟩, ⟨2, .bytes sb⟩], ?_, ?_⟩
    · have := h1 _ (le_refl _)
      simpa [parseMessage] using this
    · have hp : parseMessage sb = some sfs := hparse _ (le_refl _)
      have hmod : c % 2 ^ 32 = c := Nat.mod_eq_of_lt hc
      simp only [List.foldlM, mergeSessionEntry, Option.bind_eq_bind, Option.some_bind, hp,
        hmerge, hmod]
      rfl

/-- The entries of a map field, followed by bytes that parse, parse to one field
per entry followed by the fields of the rest; a merge step that stores each entry
rebuilds the entries in order. -/
theorem marshalEntries_roundtrip {α M : Type} (enc : α → Option Bytes) (num : Nat)
    (h0 : 0 < num) (h1 : num < 2 ^ 29) (step : M → WireField → Option M) (ins : M → α → M) :
    ∀ (es : List α) (bytes : Bytes), marshalEntries enc num es = some bytes →
      (∀ e ∈ es, ∀ b, enc e = some b → ∀ m, step m ⟨num, .bytes b⟩ = some (ins m e)) →
      ∀ (rest : Bytes) (fsRest : List WireField),
        (∀ fuel, rest.length ≤ fuel → consumeFields fuel rest = some fsRest) →
        ∃ fs, (∀ fuel, (bytes ++ rest).length ≤ fuel →
            consumeFields fuel (bytes ++ rest) = some (fs ++ fsRest)) ∧
          ∀ m, fs.foldlM step m = some (es.foldl ins m) := by
  intro es
  induction es with
  | nil =>
    intro bytes h _ rest fsRest hrest
    simp only [marshalEntries, Option.some.injEq] at h
    subst h
    exact ⟨[], by simpa using hrest, fun m => rfl⟩
  | cons e es ih =>
    intro bytes h hstep rest fsRest hrest
    unfold marshalEntries at h
    cases he : enc e with
    | none => simp [he] at h
    | some b =>
      cases hes : marshalEntries enc num es with
      | none => simp [he, hes] at h
      | some bs =>
        simp only [he, hes, Option.some.injEq] at h
        subst h
        obtain ⟨fs, hparse, hfold⟩ :=
          ih bs hes (fun e' he' => hstep e' (List.mem_cons_of_mem _ he')) rest fsRest hrest
        refine ⟨⟨num, .bytes b⟩ :: fs, ?_, ?_⟩
        · have := consumeFields_cons
            (consumeField_encodeBytesField num b (bs ++ rest) h0 h1)
            (encodeBytesField_ne_nil num b) hparse
          simpa [List.append_assoc] using this
        · intro m
          rw [List.foldlM_cons, hstep e (List.mem_cons_self _ _) b he m]
          exact hfold (ins m e)

/-- Marshalling the entries of a map field succeeds when each entry marshals. -/
theorem marshalEntries_isSome {α : Type} (enc : α → Option Bytes) (num : Nat) :
    ∀ es : List α, (∀ e ∈ es, ∃ b, enc e = some b) →
      ∃ bytes, marshalEntries enc num es = some bytes := by
  intro es
  induction es with
  | nil => intro _; exact ⟨[], rfl⟩
  | cons e es ih =>
    intro h
    obtain ⟨b, hb⟩ := h e (List.mem_cons_self _ _)
    obtain ⟨bs, hbs⟩ := ih (fun e' he' => h e' (List.mem_cons_of_mem _ he'))
    exact ⟨encodeBytesField num b ++ bs, by simp [marshalEntries, hb, hbs]⟩

namespace GoMap

variable {K V : Type} [DecidableEq K]

theorem lookup_store (m : GoMap K V) (k : K) (v : V) (k' : K) :
    (m.store k v).lookup k' = if k' = k then some v else m.lookup k' := by
  cases m with
  | nil =>
    show AList.lookup k' ((∅ : Table K V).insert k v) = _
    by_cases hk : k' = k
    · subst hk; rw [AList.lookup_insert, if_pos rfl]
    · rw [AList.lookup_insert_ne hk, if_neg hk]; rfl
  | allocated t =>
    by_cases hk : k' = k
    · subst hk; simp [store, lookup]
    · simp [store, lookup, hk, AList.lookup_insert_ne hk]

/-- Storing the entries of a list with unique keys one after the other: a key of
the list is found with its value, any other key as before. -/
theorem lookup_foldl_store (l : List (Sigma fun _ : K => V)) (hl : l.NodupKeys) :
    ∀ (m : GoMap K V) (k : K),
      ((l.map fun e => (e.1, e.2)).foldl (fun m e => m.store e.1 e.2) m).lookup k
        = match l.dlookup k with
          | some v => some v
          | none => m.lookup k := by
  induction l with
  | nil => intro m k; rfl
  | cons e l ih =>
    intro m k
    obtain ⟨k', v'⟩ := e
    rw [List.nodupKeys_cons] at hl
    simp only [List.map_cons, List.foldl_cons]
    rw [ih hl.2, lookup_store]
    by_cases hk : k = k'
    · subst hk
      have hnone : l.dlookup k = none := List.dlookup_eq_none.mpr hl.1
      simp [hnone]
    · have hk' : k' ≠ k := fun h => hk h.symm
      rw [List.dlookup_cons_ne _ _ hk]
      simp [hk]

/-- Storing the entries of a map into the `nil` map gives a map with the same
entries. -/
theorem lookup_foldl_store_entries (t : GoMap K V) (k : K) :
    (t.entries.foldl (fun m e => m.store e.1 e.2) nil).lookup k = t.lookup k := by
  cases t with
  | nil => rfl
  | allocated t =>
    simp only [entries]
    rw [lookup_foldl_store t.entries t.nodupKeys]
    simp only [lookup, AList.lookup]
    cases t.entries.dlookup k <;> rfl

theorem mem_entries_iff (t : GoMap K V) (k : K) (v : V) :
    (k, v) ∈ t.entries ↔ t.lookup k = some v := by
  cases t with
  | nil => simp [entries, lookup]
  | allocated t =>
    simp only [entries, lookup, List.mem_map, Prod.mk.injEq]
    constructor
    · rintro ⟨⟨k', v'⟩, hmem, hk, hv⟩
      simp only at hk hv
      subst hk; subst hv
      exact AList.mem_lookup_iff.mpr hmem
    · intro h
      exact ⟨⟨k, v⟩, AList.mem_lookup_iff.mp h, rfl, rfl⟩

end GoMap

theorem consumeField_varint_lt {b rest : Bytes} {f : WireField}
    (h : consumeField b = some (f, rest)) (v : Nat) (hv : f.value = .varint v) :
    v < 2 ^ 64 := by
  unfold consumeField at h
  split at h
  · cases h
  · split at h
    · cases h
    · split at h
      · split at h
        · cases h
        · split at h
          · simp only [Option.some.injEq, Prod.mk.injEq] at h
            obtain ⟨hf, _⟩ := h
            subst hf
            simp only [WireValue.varint.injEq] at hv
            subst hv
            assumption
          · cases h
      · split at h
        · cases h
        · simp only [Option.some.injEq, Prod.mk.injEq] at h
          obtain ⟨hf, _⟩ := h
          subst hf
          cases hv
      · split at h
        · cases h
        · split at h
          · cases h
          · simp only [Option.some.injEq, Prod.mk.injEq] at h
            obtain ⟨hf, _⟩ := h
            subst hf
            cases hv
      · split at h
        · cases h
        · simp only [Option.some.injEq, Prod.mk.injEq] at h
          obtain ⟨hf, _⟩ := h
          subst hf
          cases hv
      · cases h

theorem consumeFields_varint_lt (fuel : Nat) :
    ∀ (b : Bytes) (fs : List WireField), consumeFields fuel b = some fs →
      ∀ f ∈ fs, ∀ v, f.value = .varint v → v < 2 ^ 64 := by
  induction fuel with
  | zero =>
    intro b fs h f hf
    cases b with
    | nil =>
      simp only [consumeFields, Option.some.injEq] at h
      subst h
      cases hf
    | cons x xs => simp [consumeFields] at h
  | succ n ih =>
    intro b fs h f hf
    cases b with
    | nil =>
      simp only [consumeFields, Option.some.injEq] at h
      subst h
      cases hf
    | cons x xs =>
      rw [consumeFields] at h
      cases hfield : consumeField (x :: xs) with
      | none => simp [hfield] at h
      | some p =>
        obtain ⟨f0, rest⟩ := p
        cases hrest : consumeFields n rest with
        | none => simp [hfield, hrest] at h
        | some fs0 =>
          simp only [hfield, hrest, Option.some.injEq] at h
          subst h
          rcases List.mem_cons.mp hf with h0 | h0
          · subst h0
            exact consumeField_varint_lt hfield
          · exact ih rest fs0 hrest f h0

/-- A property of the accumulator that every merge step keeps holds after merging
a list of fields. -/
theorem foldlM_invariant {α β : Type} (f : β → α → Option β) (Inv : β → Prop)
    (Q : α → Prop) (hstep : ∀ a x b, Inv a → Q x → f a x = some b → Inv b) :
    ∀ (l : List α) (init r : β), Inv init → (∀ x ∈ l, Q x) →
      l.foldlM f init = some r → Inv r := by
  intro l
  induction l with
  | nil =>
    intro init r hinit _ h
    simp only [List.foldlM, pure, Option.some.injEq] at h
    subst h
    exact hinit
  | cons x xs ih =>
    intro init r hinit hQ h
    rw [List.foldlM_cons] at h
    cases hfx : f init x with
    | none => simp [hfx] at h
    | some b =>
      simp only [hfx, Option.bind_eq_bind, Option.some_bind] at h
      exact ih b r (hstep init x b hinit (hQ x (List.mem_cons_self _ _)) hfx)
        (fun y hy => hQ y (List.mem_cons_of_mem _ hy)) h

/-- A request that decodes has UTF-8 key and value, a `uint32` client ID and a
`uint64` sequence number. -/
theorem unmarshalRequest_valid {b : Bytes} {request : Request}
    (h : unmarshalRequest b = some request) :
    utf8Valid request.Key = true ∧ utf8Valid request.Value = true ∧
      request.Client < 2 ^ 32 ∧ request.SequenceNumber < 2 ^ 64 := by
  unfold unmarshalRequest at h
  cases hp : parseMessage b with
  | none => simp [hp] at h
  | some fs =>
    simp only [hp] at h
    refine foldlM_invariant Request.mergeField
      (fun r => utf8Valid r.Key = true ∧ utf8Valid r.Value = true ∧
        r.Client < 2 ^ 32 ∧ r.SequenceNumber < 2 ^ 64)
      (fun f => ∀ v, f.value = .varint v → v < 2 ^ 64) ?_ fs ⟨[], [], 0, 0⟩ request
      ⟨rfl, rfl, by norm_num, by norm_num⟩
      (consumeFields_varint_lt _ b fs hp) h
    intro a x r ha hx hstep
    obtain ⟨num, value⟩ := x
    unfold Request.mergeField at hstep
    split at hstep
    · split at hstep
      · simp only [Option.some.injEq] at hstep
        subst hstep
        exact ⟨by assumption, ha.2.1, ha.2.2.1, ha.2.2.2⟩
      · cases hstep
    · split at hstep
      · simp only [Option.some.injEq] at hstep
        subst hstep
        exact ⟨ha.1, by assumption, ha.2.2.1, ha.2.2.2⟩
      · cases hstep
    · simp only [Option.some.injEq] at hstep
      subst hstep
      exact ⟨ha.1, ha.2.1, Nat.mod_lt _ (by norm_num), ha.2.2.2⟩
    · simp only [Option.some.injEq] at hstep
      subst hstep
      rename_i v _ _
      exact ⟨ha.1, ha.2.1, ha.2.2.1, hx v (by simp_all)⟩
    · simp only [Option.some.injEq] at hstep
      subst hstep
      exact ha

namespace ProtoKeyValueStore

theorem foldl_storeKeyValue (es : List (GoString × GoString)) :
    ∀ m : ProtoKeyValueStore,
      (es.foldl storeKeyValue m).KeyValueTable
          = es.foldl (fun t e => t.store e.1 e.2) m.KeyValueTable ∧
        (es.foldl storeKeyValue m).SessionTable = m.SessionTable := by
  induction es with
  | nil => intro m; exact ⟨rfl, rfl⟩
  | cons e es ih =>
    intro m
    simp only [List.foldl_cons]
    exact ih (m.storeKeyValue e)

theorem foldl_storeSession (es : List (Nat × Session)) :
    ∀ m : ProtoKeyValueStore,
      (es.foldl storeSession m).SessionTable
          = es.foldl (fun t e => t.store e.1 e.2) m.SessionTable ∧
        (es.foldl storeSession m).KeyValueTable = m.KeyValueTable := by
  induction es with
  | nil => intro m; exact ⟨rfl, rfl⟩
  | cons e es ih =>
    intro m
    simp only [List.foldl_cons]
    exact ih (m.storeSession e)

theorem mergeField_keyValue {e : GoString × GoString} {b : Bytes}
    (h : marshalStringEntry e = some b) (m : ProtoKeyValueStore) :
    m.mergeField ⟨1, .bytes b⟩ = some (m.storeKeyValue e) := by
  obtain ⟨fs, hp, hm⟩ := marshalStringEntry_roundtrip h
  simp [mergeField, hp, hm, storeKeyValue]

theorem mergeField_session {e : Nat × Session} {b : Bytes}
    (h : marshalSessionEntry e = some b) (hc : e.1 < 2 ^ 32)
    (hseq : e.2.SequenceNumber < 2 ^ 64) (m : ProtoKeyValueStore) :
    m.mergeField ⟨2, .bytes b⟩ = some (m.storeSession e) := by
  obtain ⟨fs, hp, hm⟩ := marshalSessionEntry_roundtrip h hc hseq
  simp [mergeField, hp, hm, storeSession]

end ProtoKeyValueStore

/-- The codec reads back what it wrote: a `pb.KeyValueStore` whose strings are
UTF-8 and whose numbers fit marshals, the bytes unmarshal, and the two tables
read back have the entries of the ones written. -/
theorem marshal_unmarshal_KeyValueStore (m : ProtoKeyValueStore)
    (hkv : ∀ k v, m.KeyValueTable.lookup k = some v → utf8Valid k = true ∧ utf8Valid v = true)
    (hs : ∀ c s, m.SessionTable.lookup c = some s →
      c < 2 ^ 32 ∧ s.SequenceNumber < 2 ^ 64 ∧ utf8Valid s.LastResult = true) :
    ∃ data m', marshalKeyValueStore m = .ok data ∧ unmarshalKeyValueStore data = .ok m' ∧
      (∀ k, m'.KeyValueTable.lookup k = m.KeyValueTable.lookup k) ∧
      (∀ c, m'.SessionTable.lookup c = m.SessionTable.lookup c) := by
  have hkvEnc : ∀ e ∈ m.KeyValueTable.entries, ∃ b, marshalStringEntry e = some b := by
    rintro ⟨k, v⟩ he
    obtain ⟨h1, h2⟩ := hkv k v ((GoMap.mem_entries_iff _ k v).mp he)
    cases h : marshalStringEntry (k, v) with
    | some b => exact ⟨b, rfl⟩
    | none => simp [marshalStringEntry, h1, h2] at h
  have hsEnc : ∀ e ∈ m.SessionTable.entries, ∃ b, marshalSessionEntry e = some b := by
    rintro ⟨c, s⟩ he
    obtain ⟨_, _, h3⟩ := hs c s ((GoMap.mem_entries_iff _ c s).mp he)
    cases h : marshalSessionEntry (c, s) with
    | some b => exact ⟨b, rfl⟩
    | none => simp [marshalSessionEntry, marshalSession, h3] at h
  obtain ⟨a, ha⟩ := marshalEntries_isSome marshalStringEntry 1 _ hkvEnc
  obtain ⟨b, hb⟩ := marshalEntries_isSome marshalSessionEntry 2 _ hsEnc
  have hnil : ∀ fuel, ([] : Bytes).length ≤ fuel → consumeFields fuel [] = some [] :=
    fun fuel _ => consumeFields_nil fuel
  obtain ⟨fs2, hparse2, hfold2⟩ :=
    marshalEntries_roundtrip marshalSessionEntry 2 (by norm_num) (by norm_num)
      ProtoKeyValueStore.mergeField ProtoKeyValueStore.storeSession _ b hb
      (fun e he b' hb' m' => by
        obtain ⟨c, s⟩ := e
        obtain ⟨h1, h2, _⟩ := hs c s ((GoMap.mem_entries_iff _ c s).mp he)
        exact ProtoKeyValueStore.mergeField_session hb' h1 h2 m')
      [] [] hnil
  obtain ⟨fs1, hparse1, hfold1⟩ :=
    marshalEntries_roundtrip marshalStringEntry 1 (by norm_num) (by norm_num)
      ProtoKeyValueStore.mergeField ProtoKeyValueStore.storeKeyValue _ a ha
      (fun e _ b' hb' m' => ProtoKeyValueStore.mergeField_keyValue hb' m')
      (b ++ []) (fs2 ++ []) hparse2
  simp only [List.append_nil] at hparse1
  refine ⟨a ++ b, m.SessionTable.entries.foldl ProtoKeyValueStore.storeSession
      (m.KeyValueTable.entries.foldl ProtoKeyValueStore.storeKeyValue {}),
    by simp [marshalKeyValueStore, ha, hb], ?_, ?_, ?_⟩
  · have hp : parseMessage (a ++ b) = some (fs1 ++ fs2) := hparse1 _ (le_refl _)
    have hf : (fs1 ++ fs2).foldlM ProtoKeyValueStore.mergeField {}
        = some (m.SessionTable.entries.foldl ProtoKeyValueStore.storeSession
            (m.KeyValueTable.entries.foldl ProtoKeyValueStore.storeKeyValue {})) := by
      rw [foldlM_append_some _ _ _ _ _ (hfold1 {}), hfold2]
    simp only [unmarshalKeyValueStore, hp, hf]
  · intro k
    rw [(ProtoKeyValueStore.foldl_storeSession _ _).2,
      (ProtoKeyValueStore.foldl_storeKeyValue _ _).1]
    exact GoMap.lookup_foldl_store_entries _ k
  · intro c
    rw [(ProtoKeyValueStore.foldl_storeSession _ _).1,
      (ProtoKeyValueStore.foldl_storeKeyValue _ _).2]
    exact GoMap.lookup_foldl_store_entries _ c

namespace KeyValueStore

/-- Snapshot and restore of a well-formed store: `Snapshot` succeeds on a writer
that takes everything and appends its bytes to it, and `Restore` of exactly those
bytes succeeds on any store and leaves tables with the same entries. -/
theorem Snapshot_Restore_wellFormed (kv : KeyValueStore) (hwf : WellFormed kv)
    (w : Writer) (hw : w.room = none) (fresh : KeyValueStore) :
    ∃ data kv', kv.Snapshot w = ({ w with buf := w.buf ++ data }, none) ∧
      fresh.Restore { data := data } = (kv', none) ∧
      (∀ k, kv'.keyValueTable.lookup k = kv.keyValueTable.lookup k) ∧
      (∀ c, kv'.sessionTable.lookup c = kv.sessionTable.lookup c) := by
  obtain ⟨data, m', hm, hu, h1, h2⟩ :=
    marshal_unmarshal_KeyValueStore ⟨kv.keyValueTable, kv.sessionTable⟩ hwf.1 hwf.2
  refine ⟨data, ⟨m'.KeyValueTable, m'.SessionTable⟩, ?_, ?_, h1, h2⟩
  · simp [Snapshot, hm, Writer.copy, hw]
  · simp [Restore, Reader.readAll, hu]

end KeyValueStore

namespace KeyValueStore

/-- The order in which a map is ranged over plays no part in the round trip: a
store with the entries of a well-formed store, in whatever order its tables hold
them, is written and read back to those entries. -/
theorem Snapshot_Restore_any_order (kv kv0 : KeyValueStore) (hwf : WellFormed kv0)
    (hk : ∀ k, kv.keyValueTable.lookup k = kv0.keyValueTable.lookup k)
    (hs : ∀ c, kv.sessionTable.lookup c = kv0.sessionTable.lookup c)
    (w : Writer) (hw : w.room = none) (fresh : KeyValueStore) :
    ∃ data kv', kv.Snapshot w = ({ w with buf := w.buf ++ data }, none) ∧
      fresh.Restore { data := data } = (kv', none) ∧
      (∀ k, kv'.keyValueTable.lookup k = kv0.keyValueTable.lookup k) ∧
      (∀ c, kv'.sessionTable.lookup c = kv0.sessionTable.lookup c) := by
  have hwf' : WellFormed kv :=
    ⟨fun k v h => hwf.1 k v (by rw [← hk]; exact h),
     fun c s h => hwf.2 c s (by rw [← hs]; exact h)⟩
  obtain ⟨data, kv', h1, h2, h3, h4⟩ := Snapshot_Restore_wellFormed kv hwf' w hw fresh
  exact ⟨data, kv', h1, h2, fun k => by rw [h3, hk], fun c => by rw [h4, hs]⟩

theorem Get_valid (kv : KeyValueStore) (hwf : WellFormed kv) (key : GoString) :
    utf8Valid (kv.Get key) = true := by
  unfold Get
  cases h : kv.keyValueTable.lookup key with
  | none => rfl
  | some v => exact (hwf.1 key v h).2

/-- A call of `Apply` with an operation that decodes, on a store with allocated
tables that the codec can write, returns a response and leaves such a store. -/
theorem Apply_wellFormed {kv : KeyValueStore} {operation : Operation} {request : Request}
    (hdec : unmarshalRequest operation.Bytes = some request) (halloc : Allocated kv)
    (hwf : WellFormed kv) :
    ∃ kv' resp, kv.Apply operation = (kv', .response resp) ∧ Allocated kv' ∧
      WellFormed kv' := by
  obtain ⟨hkey, hvalue, hclient, hseq⟩ := unmarshalRequest_valid hdec
  by_cases hfresh : Fresh kv request
  · cases hkind : operation.OperationType with
    | Replicated =>
      obtain ⟨kv', h, ha, hk, hs⟩ := Apply_fresh_write hdec hkind hfresh halloc
      refine ⟨kv', _, h, ha, ?_, ?_⟩
      · intro k v hlook
        rw [hk] at hlook
        by_cases hkk : k = request.Key
        · simp only [hkk, if_true, Option.some.injEq] at hlook
          subst hlook
          rw [hkk]
          exact ⟨hkey, hvalue⟩
        · rw [if_neg hkk] at hlook
          exact hwf.1 k v hlook
      · intro c s hlook
        rw [hs] at hlook
        by_cases hc : c = request.Client
        · simp only [hc, if_true, Option.some.injEq] at hlook
          subst hlook
          rw [hc]
          exact ⟨hclient, hseq, hvalue⟩
        · rw [if_neg hc] at hlook
          exact hwf.2 c s hlook
    | LinearizableReadOnly =>
      obtain ⟨kv', h, hk, hsa, hs⟩ := Apply_fresh_read hdec hkind hfresh halloc.2
      refine ⟨kv', _, h, by rw [Allocated, hk]; exact ⟨halloc.1, hsa⟩, ?_, ?_⟩
      · rw [hk]; exact hwf.1
      · intro c s hlook
        rw [hs] at hlook
        by_cases hc : c = request.Client
        · simp only [hc, if_true, Option.some.injEq] at hlook
          subst hlook
          rw [hc]
          exact ⟨hclient, hseq, Get_valid kv hwf request.Key⟩
        · rw [if_neg hc] at hlook
          exact hwf.2 c s hlook
  · simp only [Fresh, not_forall, Nat.not_lt] at hfresh
    obtain ⟨session, hlook, hseq'⟩ := hfresh
    exact ⟨kv, _, Apply_duplicate kv operation request session hdec hlook hseq', halloc, hwf⟩

theorem applyAll_wellFormed (operations : List Operation) :
    ∀ (kv kv' : KeyValueStore) (responses : List Response),
      kv.applyAll operations = some (kv', responses) → Allocated kv → WellFormed kv →
      Allocated kv' ∧ WellFormed kv' := by
  induction operations with
  | nil =>
    intro kv kv' responses hrun ha hwf
    simp only [applyAll, Option.some.injEq, Prod.mk.injEq] at hrun
    rw [← hrun.1]; exact ⟨ha, hwf⟩
  | cons operation rest ih =>
    intro kv kv' responses hrun ha hwf
    unfold applyAll at hrun
    cases hdec : unmarshalRequest operation.Bytes with
    | none => simp [Apply_undecodable hdec] at hrun
    | some request =>
      obtain ⟨kv1, resp, hstep, ha1, hwf1⟩ := Apply_wellFormed hdec ha hwf
      rw [hstep] at hrun
      simp only at hrun
      cases hrest : kv1.applyAll rest with
      | none => simp [hrest] at hrun
      | some p =>
        obtain ⟨kv2, rs⟩ := p
        simp only [hrest, Option.some.injEq, Prod.mk.injEq] at hrun
        rw [← hrun.1]
        exact ih kv1 kv2 rs hrest ha1 hwf1

/-- A sequence of operations that all decode, applied to a store with allocated
tables, runs to its end: every call returns a response. -/
theorem applyAll_returns (operations : List Operation) :
    ∀ kv : KeyValueStore, Allocated kv →
      (∀ operation ∈ operations, ∃ request, unmarshalRequest operation.Bytes = some request) →
      ∃ kv' responses, kv.applyAll operations = some (kv', responses) := by
  induction operations with
  | nil => intro kv _ _; exact ⟨kv, [], rfl⟩
  | cons operation rest ih =>
    intro kv ha hdec
    obtain ⟨request, hreq⟩ := hdec operation (List.mem_cons_self _ _)
    obtain ⟨kv1, resp, hstep, ha1⟩ := Apply_allocated hreq ha
    obtain ⟨kv2, rs, hrest⟩ := ih kv1 ha1 (fun o ho => hdec o (List.mem_cons_of_mem _ ho))
    exact ⟨kv2, resp :: rs, by simp [applyAll, hstep, hrest]⟩

theorem NewKeyValueStore_allocated : Allocated NewKeyValueStore := ⟨rfl, rfl⟩

theorem NewKeyValueStore_wellFormed : WellFormed NewKeyValueStore :=
  ⟨fun _ _ h => (nomatch h), fun _ _ h => (nomatch h)⟩

/-- Every store that `Apply` calls lead to from the new store has allocated tables
that the codec can write. -/
theorem Reachable_wellFormed {kv : KeyValueStore} (h : Reachable kv) :
    Allocated kv ∧ WellFormed kv := by
  obtain ⟨operations, responses, hrun⟩ := h
  exact applyAll_wellFormed operations _ kv responses hrun NewKeyValueStore_allocated
    NewKeyValueStore_wellFormed

theorem testSnapshotStore_wellFormed : WellFormed testSnapshotStore := by
  constructor
  · intro k v h
    have h' : AList.lookup k ((∅ : Table GoString GoString).insert [0x78] [0x79]) = some v := h
    by_cases hk : k = [0x78]
    · subst hk
      rw [AList.lookup_insert] at h'
      cases h'
      exact ⟨by decide, by decide⟩
    · rw [AList.lookup_insert_ne hk] at h'
      cases h'
  · intro c s h
    have h' : AList.lookup c ((∅ : Table Nat Session).insert 1 ⟨1, [0x7a]⟩) = some s := h
    by_cases hc : c = 1
    · subst hc
      rw [AList.lookup_insert] at h'
      cases h'
      exact ⟨by norm_num, by norm_num, by decide⟩
    · rw [AList.lookup_insert_ne hc] at h'
      cases h'

end KeyValueStore

namespace KeyValueStore

/-- A client without a session makes every request fresh. -/
theorem Fresh_of_no_session {kv : KeyValueStore} {request : Request}
    (h : kv.sessionTable.lookup request.Client = none) : Fresh kv request := by
  intro session hs
  rw [h] at hs
  cases hs

/-- The session after a fresh operation, on a store with allocated tables: `Apply`
returns a response, the session of the client holds the sequence number of the
request and the value of the response, and every other session is as before. -/
theorem Apply_fresh_session {kv : KeyValueStore} {operation : Operation} {request : Request}
    (hdec : unmarshalRequest operation.Bytes = some request)
    (hfresh : Fresh kv request) (halloc : Allocated kv) :
    ∃ kv' resp, kv.Apply operation = (kv', .response resp) ∧
      kv'.sessionTable.lookup request.Client = some ⟨request.SequenceNumber, resp.Value⟩ ∧
      ∀ c, c ≠ request.Client → kv'.sessionTable.lookup c = kv.sessionTable.lookup c := by
  cases hkind : operation.OperationType with
  | Replicated =>
    obtain ⟨kv', h, _, _, hs⟩ := Apply_fresh_write hdec hkind hfresh halloc
    exact ⟨kv', _, h, by rw [hs]; simp, fun c hc => by rw [hs, if_neg hc]⟩
  | LinearizableReadOnly =>
    obtain ⟨kv', h, _, _, hs⟩ := Apply_fresh_read hdec hkind hfresh halloc.2
    exact ⟨kv', _, h, by rw [hs]; simp, fun c hc => by rw [hs, if_neg hc]⟩

/-- A request of a client without a session, on a store with allocated tables, is
executed whatever its sequence number: a write stores the value and answers with
it, a read answers with what `Get` finds and leaves the key-value table; either
way the client has a session afterwards. -/
theorem Apply_new_client {kv : KeyValueStore} {operation : Operation} {request : Request}
    (hdec : unmarshalRequest operation.Bytes = some request)
    (hnew : kv.sessionTable.lookup request.Client = none) (halloc : Allocated kv) :
    ∃ kv' resp, kv.Apply operation = (kv', .response resp) ∧
      kv'.sessionTable.lookup request.Client = some ⟨request.SequenceNumber, resp.Value⟩ ∧
      (operation.OperationType = .Replicated →
        resp.Value = request.Value ∧
        kv'.keyValueTable.lookup request.Key = some request.Value) ∧
      (operation.OperationType = .LinearizableReadOnly →
        resp.Value = kv.Get request.Key ∧ kv'.keyValueTable = kv.keyValueTable) := by
  have hfresh := Fresh_of_no_session hnew
  cases hkind : operation.OperationType with
  | Replicated =>
    obtain ⟨kv', h, _, hk, hs⟩ := Apply_fresh_write hdec hkind hfresh halloc
    refine ⟨kv', _, h, by rw [hs]; simp, fun _ => ⟨rfl, by rw [hk]; simp⟩, fun h' => ?_⟩
    cases h'
  | LinearizableReadOnly =>
    obtain ⟨kv', h, hk, _, hs⟩ := Apply_fresh_read hdec hkind hfresh halloc.2
    refine ⟨kv', _, h, by rw [hs]; simp, fun h' => ?_, fun _ => ⟨rfl, hk⟩⟩
    cases h'

end KeyValueStore

/-! ## `ParseCluster` -/

theorem Cut_found_iff (sep : UInt8) : ∀ s : GoString, (Cut s sep).2.2 = true ↔ sep ∈ s := by
  intro s
  induction s with
  | nil => simp [Cut]
  | cons b rest ih =>
    unfold Cut
    by_cases hb : b = sep
    · simp [hb]
    · rw [if_neg hb]
      have hne : ¬ sep = b := fun h => hb h.symm
      cases hc : Cut rest sep with
      | mk before p =>
        obtain ⟨after, found⟩ := p
        rw [hc] at ih
        cases found with
        | true =>
          simp only at ih
          simp [hne, ih.mp trivial]
        | false =>
          simp only at ih
          have : sep ∉ rest := fun h => by simpa using ih.mpr h
          simp [hne, this]

/-- What `Cut` returns when it finds the separator: the text splits at the first
occurrence. -/
theorem Cut_true (sep : UInt8) : ∀ (s id address : GoString),
    Cut s sep = (id, address, true) → s = id ++ sep :: address ∧ sep ∉ id := by
  intro s
  induction s with
  | nil => intro id address h; simp [Cut] at h
  | cons b rest ih =>
    intro id address h
    unfold Cut at h
    by_cases hb : b = sep
    · rw [if_pos hb] at h
      simp only [Prod.mk.injEq, and_true] at h
      obtain ⟨h1, h2⟩ := h
      subst h1; subst h2; subst hb
      simp
    · rw [if_neg hb] at h
      cases hc : Cut rest sep with
      | mk before p =>
        obtain ⟨after, found⟩ := p
        rw [hc] at h
        cases found with
        | true =>
          simp only [Prod.mk.injEq, and_true] at h
          obtain ⟨h1, h2⟩ := h
          subst h1; subst h2
          obtain ⟨hrest, hnot⟩ := ih before after hc
          refine ⟨by rw [hrest]; rfl, ?_⟩
          intro hmem
          rcases List.mem_cons.mp hmem with h' | h'
          · exact hb h'.symm
          · exact hnot h'
        | false => simp at h

/-- A text with the separator splits at its first occurrence. -/
theorem Cut_append (sep : UInt8) (address : GoString) : ∀ id : GoString, sep ∉ id →
    Cut (id ++ sep :: address) sep = (id, address, true) := by
  intro id
  induction id with
  | nil => intro _; simp [Cut]
  | cons b rest ih =>
    intro h
    have hb : b ≠ sep := fun hb => h (by simp [hb])
    have hrest : sep ∉ rest := fun hr => h (List.mem_cons_of_mem _ hr)
    rw [List.cons_append, Cut, if_neg hb, ih hrest]

/-- The loop of `ParseCluster` ends without an error exactly when every member that
is left has a `':'`. -/
theorem parseMembers_ok_iff (cluster : List GoString) : ∀ (members : List GoString)
    (configuration : Table GoString GoString),
    (parseMembers cluster configuration members).2 = none ↔
      ∀ member ∈ members, (0x3a : UInt8) ∈ member := by
  intro members
  induction members with
  | nil => intro configuration; simp [parseMembers]
  | cons member rest ih =>
    intro configuration
    unfold parseMembers
    have hfound := Cut_found_iff 0x3a member
    cases hc : Cut member 0x3a with
    | mk id p =>
      obtain ⟨address, found⟩ := p
      rw [hc] at hfound
      cases found with
      | true =>
        simp only at hfound
        simp only [ih, List.mem_cons, forall_eq_or_imp, hfound.mp trivial, true_and]
      | false =>
        simp only at hfound
        have : (0x3a : UInt8) ∉ member := fun h => by simpa using hfound.mpr h
        simp [this]

/-- The loop of `ParseCluster` returns an allocated map with a `nil` error, or the
`nil` map with the error that names the cluster. -/
theorem parseMembers_result (cluster : List GoString) : ∀ (members : List GoString)
    (configuration : Table GoString GoString),
    (∃ t, parseMembers cluster configuration members = (.allocated t, none)) ∨
      parseMembers cluster configuration members = (.nil, some ⟨cluster⟩) := by
  intro members
  induction members with
  | nil => intro configuration; exact Or.inl ⟨configuration, rfl⟩
  | cons member rest ih =>
    intro configuration
    unfold parseMembers
    cases hc : Cut member 0x3a with
    | mk id p =>
      obtain ⟨address, found⟩ := p
      cases found with
      | true => exact ih _
      | false => exact Or.inr rfl

/-- Every entry of the map the loop returns is in the map it started with or comes
from a member: the key is the text before the first `':'` of the member, the value
all the text after it. -/
theorem parseMembers_lookup_origin (cluster : List GoString) : ∀ (members : List GoString)
    (configuration : Table GoString GoString) (id address : GoString),
    (parseMembers cluster configuration members).1.lookup id = some address →
      (∃ member ∈ members, member = id ++ 0x3a :: address ∧ (0x3a : UInt8) ∉ id) ∨
        configuration.lookup id = some address := by
  intro members
  induction members with
  | nil => intro configuration id address h; exact Or.inr h
  | cons member rest ih =>
    intro configuration id address h
    unfold parseMembers at h
    cases hc : Cut member 0x3a with
    | mk id' p =>
      obtain ⟨address', found⟩ := p
      rw [hc] at h
      cases found with
      | true =>
        simp only at h
        obtain ⟨hsplit, hnot⟩ := Cut_true 0x3a member id' address' hc
        rcases ih _ id address h with ⟨m, hm, hrest⟩ | hlook
        · exact Or.inl ⟨m, List.mem_cons_of_mem _ hm, hrest⟩
        · by_cases hid : id = id'
          · subst hid
            rw [AList.lookup_insert] at hlook
            cases hlook
            exact Or.inl ⟨member, List.mem_cons_self _ _, hsplit, hnot⟩
          · rw [AList.lookup_insert_ne hid] at hlook
            exact Or.inr hlook
      | false =>
        simp only [GoMap.lookup] at h
        cases h

/-- Members none of which has the ID `id` leave the entry of `id` as it is. -/
theorem parseMembers_lookup_other (cluster : List GoString) (id : GoString) :
    ∀ (members : List GoString) (configuration : Table GoString GoString),
    (parseMembers cluster configuration members).2 = none →
    (∀ member ∈ members, ∀ address, member ≠ id ++ 0x3a :: address) → (0x3a : UInt8) ∉ id →
      (parseMembers cluster configuration members).1.lookup id = configuration.lookup id := by
  intro members
  induction members with
  | nil => intro configuration _ _ _; rfl
  | cons member rest ih =>
    intro configuration hok hother hid
    unfold parseMembers at hok ⊢
    cases hc : Cut member 0x3a with
    | mk id' p =>
      obtain ⟨address', found⟩ := p
      rw [hc] at hok
      cases found with
      | true =>
        simp only at hok ⊢
        obtain ⟨hsplit, _⟩ := Cut_true 0x3a member id' address' hc
        have hne : id ≠ id' := by
          intro h
          subst h
          exact hother member (List.mem_cons_self _ _) address' hsplit
        rw [ih _ hok (fun m hm => hother m (List.mem_cons_of_mem _ hm)) hid,
          AList.lookup_insert_ne hne]
      | false => simp at hok

/-- A member `id:address` after which no member has the ID `id` decides the entry
of `id`. -/
theorem parseMembers_lookup_last (cluster : List GoString) (id address : GoString)
    (post : List GoString) : ∀ (pre : List GoString) (configuration : Table GoString GoString),
    (parseMembers cluster configuration (pre ++ (id ++ 0x3a :: address) :: post)).2 = none →
    (0x3a : UInt8) ∉ id → (∀ member ∈ post, ∀ address', member ≠ id ++ 0x3a :: address') →
      (parseMembers cluster configuration (pre ++ (id ++ 0x3a :: address) :: post)).1.lookup id
        = some address := by
  intro pre
  induction pre with
  | nil =>
    intro configuration hok hid hother
    rw [List.nil_append] at hok ⊢
    unfold parseMembers at hok ⊢
    rw [Cut_append 0x3a address id hid] at hok ⊢
    simp only at hok ⊢
    rw [parseMembers_lookup_other cluster id post _ hok hother hid, AList.lookup_insert]
  | cons member rest ih =>
    intro configuration hok hid hother
    rw [List.cons_append] at hok ⊢
    unfold parseMembers at hok ⊢
    cases hc : Cut member 0x3a with
    | mk id' p =>
      obtain ⟨address', found⟩ := p
      rw [hc] at hok
      cases found with
      | true =>
        simp only at hok ⊢
        exact ih _ hok hid hother
      | false => simp at hok

/-! ## The client -/

theorem AllFailed_nil (world : World) : AllFailed world [] := by
  intro i a h
  simp at h

theorem AllFailed_append {world : World} {attempts : List Attempt} {a : Attempt}
    (h : AllFailed world attempts)
    (ha : world.call attempts.length a.node a.rpc a.request = none) :
    AllFailed world (attempts ++ [a]) := by
  intro i b hb
  by_cases hi : i < attempts.length
  · rw [List.getElem?_append_left hi] at hb
    exact h i b hb
  · have hle : attempts.length ≤ i := Nat.le_of_not_lt hi
    rw [List.getElem?_append_right hle] at hb
    by_cases h0 : i - attempts.length = 0
    · rw [h0] at hb
      simp only [List.getElem?_cons_zero, Option.some.injEq] at hb
      subst hb
      have : i = attempts.length := by omega
      rw [this]
      exact ha
    · obtain ⟨k, hk⟩ := Nat.exists_eq_succ_of_ne_zero h0
      rw [hk] at hb
      simp at hb

theorem AllSend_append {rpc : Rpc} {request : Request} {attempts : List Attempt}
    {node : GoString} (h : AllSend rpc request attempts) :
    AllSend rpc request (attempts ++ [⟨node, rpc, request⟩]) := by
  intro a ha
  rcases List.mem_append.mp ha with h' | h'
  · exact h a h'
  · simp only [List.mem_singleton] at h'
    subst h'
    exact ⟨rfl, rfl⟩

namespace Client

/-- The inner loop, started after calls that all failed: when a node answers, its
call is the last one recorded and all calls before it failed; when none answers,
all calls recorded failed. -/
theorem sweep_spec (world : World) (rpc : Rpc) (request : Request) :
    ∀ (ids : List GoString) (attempts : List Attempt),
      AllFailed world attempts → AllSend rpc request attempts →
      (∃ id value pre, sweep world rpc request ids attempts
            = (some (id, value), pre ++ [⟨id, rpc, request⟩]) ∧
          AllFailed world pre ∧ AllSend rpc request pre ∧
          world.call pre.length id rpc request = some value) ∨
      (∃ attempts', sweep world rpc request ids attempts = (none, attempts') ∧
          AllFailed world attempts' ∧ AllSend rpc request attempts') := by
  intro ids
  induction ids with
  | nil =>
    intro attempts hf hs
    exact Or.inr ⟨attempts, rfl, hf, hs⟩
  | cons id rest ih =>
    intro attempts hf hs
    unfold sweep
    cases hcall : world.call attempts.length id rpc request with
    | some value =>
      exact Or.inl ⟨id, value, attempts, rfl, hf, hs, hcall⟩
    | none =>
      exact ih (attempts ++ [⟨id, rpc, request⟩]) (AllFailed_append hf hcall)
        (AllSend_append hs)

/-- The outer loop, started after calls that all failed. When it returns without an
error, the node whose ID is the leader ID at the return made the last call
recorded and answered it with the value returned, and all calls before it failed.
When it returns an error, that is `ErrTimeout` with the empty string, all calls
recorded failed, and the leader ID is empty if the loop was entered and as at the
start, with no call made, if it was not. -/
theorem loop_spec (world : World) (rpc : Rpc) (request : Request) (timeout : Int) :
    ∀ (fuel iteration : Nat) (leaderID : GoString) (attempts : List Attempt)
      (l : GoString) (atts : List Attempt) (v : GoString) (err : Option GoError),
      AllFailed world attempts → AllSend rpc request attempts →
      loop world rpc request timeout fuel iteration leaderID attempts = some (l, atts, v, err) →
      AllSend rpc request atts ∧
      ((err = none ∧ ∃ pre, atts = pre ++ [⟨l, rpc, request⟩] ∧ AllFailed world pre ∧
          world.call pre.length l rpc request = some v) ∨
       (err = some ErrTimeout ∧ v = [] ∧ AllFailed world atts ∧
          ((world.since iteration < timeout ∧ l = []) ∨
           (¬ world.since iteration < timeout ∧ l = leaderID ∧ atts = attempts)))) := by
  intro fuel
  induction fuel with
  | zero =>
    intro iteration leaderID attempts l atts v err _ _ h
    simp [loop] at h
  | succ fuel ih =>
    intro iteration leaderID attempts l atts v err hf hs h
    unfold loop at h
    by_cases hclock : world.since iteration < timeout
    · rw [if_pos hclock] at h
      by_cases hleader : leaderID ≠ []
      · rw [if_pos hleader] at h
        cases hcall : world.call attempts.length leaderID rpc request with
        | some value =>
          simp only [hcall, Option.some.injEq, Prod.mk.injEq] at h
          obtain ⟨h1, h2, h3, h4⟩ := h
          subst h1; subst h2; subst h3; subst h4
          exact ⟨AllSend_append hs, Or.inl ⟨rfl, attempts, rfl, hf, hcall⟩⟩
        | none =>
          simp only [hcall] at h
          have hf' := AllFailed_append (a := ⟨leaderID, rpc, request⟩) hf hcall
          have hs' : AllSend rpc request (attempts ++ [⟨leaderID, rpc, request⟩]) :=
            AllSend_append hs
          rcases sweep_spec world rpc request (world.order iteration) _ hf' hs' with
            ⟨id, value, pre, hsw, hpf, hps, hpc⟩ | ⟨attempts', hsw, haf, has⟩
          · rw [hsw] at h
            simp only [Option.some.injEq, Prod.mk.injEq] at h
            obtain ⟨h1, h2, h3, h4⟩ := h
            subst h1; subst h2; subst h3; subst h4
            exact ⟨AllSend_append hps, Or.inl ⟨rfl, pre, rfl, hpf, hpc⟩⟩
          · rw [hsw] at h
            simp only at h
            obtain ⟨hsend, hres⟩ := ih (iteration + 1) [] attempts' l atts v err haf has h
            refine ⟨hsend, ?_⟩
            rcases hres with hok | ⟨he, hv, hall, hl⟩
            · exact Or.inl hok
            · refine Or.inr ⟨he, hv, hall, Or.inl ⟨hclock, ?_⟩⟩
              rcases hl with ⟨_, hl⟩ | ⟨_, hl, _⟩ <;> exact hl
      · rw [if_neg hleader] at h
        have hempty : leaderID = [] := by
          by_contra hne
          exact hleader hne
        rcases sweep_spec world rpc request (world.order iteration) _ hf hs with
          ⟨id, value, pre, hsw, hpf, hps, hpc⟩ | ⟨attempts', hsw, haf, has⟩
        · rw [hsw] at h
          simp only [Option.some.injEq, Prod.mk.injEq] at h
          obtain ⟨h1, h2, h3, h4⟩ := h
          subst h1; subst h2; subst h3; subst h4
          exact ⟨AllSend_append hps, Or.inl ⟨rfl, pre, rfl, hpf, hpc⟩⟩
        · rw [hsw] at h
          simp only at h
          obtain ⟨hsend, hres⟩ := ih (iteration + 1) leaderID attempts' l atts v err haf has h
          refine ⟨hsend, ?_⟩
          rcases hres with hok | ⟨he, hv, hall, hl⟩
          · exact Or.inl hok
          · refine Or.inr ⟨he, hv, hall, Or.inl ⟨hclock, ?_⟩⟩
            rcases hl with ⟨_, hl⟩ | ⟨_, hl, _⟩
            · exact hl
            · rw [hl, hempty]
    · rw [if_neg hclock] at h
      simp only [Option.some.injEq, Prod.mk.injEq] at h
      obtain ⟨h1, h2, h3, h4⟩ := h
      subst h1; subst h2; subst h3; subst h4
      exact ⟨hs, Or.inr ⟨rfl, rfl, hf, Or.inr ⟨hclock, rfl, rfl⟩⟩⟩

/-- More fuel does not change what the loop returns. -/
theorem loop_mono (world : World) (rpc : Rpc) (request : Request) (timeout : Int) :
    ∀ (fuel iteration : Nat) (leaderID : GoString) (attempts : List Attempt)
      (r : GoString × List Attempt × GoString × Option GoError),
      loop world rpc request timeout fuel iteration leaderID attempts = some r →
      loop world rpc request timeout (fuel + 1) iteration leaderID attempts = some r := by
  intro fuel
  induction fuel with
  | zero => intro iteration leaderID attempts r h; simp [loop] at h
  | succ fuel ih =>
    intro iteration leaderID attempts r h
    unfold loop at h ⊢
    by_cases hclock : world.since iteration < timeout
    · rw [if_pos hclock] at h ⊢
      by_cases hleader : leaderID ≠ []
      · rw [if_pos hleader] at h ⊢
        cases hcall : world.call attempts.length leaderID rpc request with
        | some value => simpa [hcall] using h
        | none =>
          simp only [hcall] at h ⊢
          cases hsw : sweep world rpc request (world.order iteration)
              (attempts ++ [⟨leaderID, rpc, request⟩]) with
          | mk found attempts' =>
            rw [hsw] at h
            cases found with
            | some p => obtain ⟨id, value⟩ := p; simpa using h
            | none => simp only at h ⊢; exact ih _ _ _ _ h
      · rw [if_neg hleader] at h ⊢
        cases hsw : sweep world rpc request (world.order iteration) attempts with
        | mk found attempts' =>
          rw [hsw] at h
          cases found with
          | some p => obtain ⟨id, value⟩ := p; simpa using h
          | none => simp only at h ⊢; exact ih _ _ _ _ h
    · rw [if_neg hclock] at h ⊢
      exact h

/-- When every call fails, the inner loop ends without an answer. -/
theorem sweep_all_fail (world : World) (rpc : Rpc) (request : Request)
    (hfail : ∀ n id, world.call n id rpc request = none) :
    ∀ (ids : List GoString) (attempts : List Attempt),
      ∃ attempts', sweep world rpc request ids attempts = (none, attempts') := by
  intro ids
  induction ids with
  | nil => intro attempts; exact ⟨attempts, rfl⟩
  | cons id rest ih =>
    intro attempts
    unfold sweep
    rw [hfail]
    exact ih _

/-- When every call fails and the clock reaches the timeout at its `n`-th test, the
loop started at an earlier test returns `ErrTimeout` with the empty string, given
fuel for the tests up to the `n`-th. -/
theorem loop_times_out (world : World) (rpc : Rpc) (request : Request) (timeout : Int)
    (hfail : ∀ n id, world.call n id rpc request = none) (n : Nat)
    (hn : timeout ≤ world.since n) :
    ∀ (k iteration : Nat), iteration + k = n → ∀ (fuel : Nat), k + 1 ≤ fuel →
      ∀ (leaderID : GoString) (attempts : List Attempt),
      ∃ l atts, loop world rpc request timeout fuel iteration leaderID attempts
        = some (l, atts, [], some ErrTimeout) := by
  intro k
  induction k with
  | zero =>
    intro iteration hk fuel hfuel leaderID attempts
    simp only [Nat.add_zero] at hk
    subst hk
    obtain ⟨f, rfl⟩ : ∃ f, fuel = f + 1 := ⟨fuel - 1, by omega⟩
    unfold loop
    rw [if_neg (not_lt.mpr hn)]
    exact ⟨_, _, rfl⟩
  | succ k ih =>
    intro iteration hk fuel hfuel leaderID attempts
    obtain ⟨f, rfl⟩ : ∃ f, fuel = f + 1 := ⟨fuel - 1, by omega⟩
    unfold loop
    by_cases hclock : world.since iteration < timeout
    · rw [if_pos hclock]
      by_cases hleader : leaderID ≠ []
      · rw [if_pos hleader, hfail]
        obtain ⟨attempts', hsw⟩ := sweep_all_fail world rpc request hfail
          (world.order iteration) (attempts ++ [⟨leaderID, rpc, request⟩])
        simp only [hsw]
        exact ih (iteration + 1) (by omega) f (by omega) [] attempts'
      · rw [if_neg hleader]
        obtain ⟨attempts', hsw⟩ := sweep_all_fail world rpc request hfail
          (world.order iteration) attempts
        simp only [hsw]
        exact ih (iteration + 1) (by omega) f (by omega) leaderID attempts'
    · rw [if_neg hclock]
      exact ⟨_, _, rfl⟩

end Client

namespace Client

theorem NewClient_zero {uuid : Option Nat} {dialFails : GoString → Bool}
    {nodes : GoMap GoString GoString} {c : Client}
    (h : NewClient uuid dialFails nodes = some c) :
    c.sequenceNumber = 0 ∧ c.leaderID = [] := by
  unfold NewClient at h
  cases uuid with
  | none => simp at h
  | some id =>
    simp only at h
    split at h
    · cases h
    · simp only [Option.some.injEq] at h
      subst h
      exact ⟨rfl, rfl⟩

/-- What a call of `submitOperation` that returns leaves and returns, read off the
loop. -/
theorem submitOperation_eq {c : Client} {world : World} {rpc : Rpc} {request : Request}
    {timeout : Int} {fuel : Nat} {r : Submitted}
    (h : c.submitOperation world rpc request timeout fuel = some r) :
    loop world rpc request timeout fuel 0 c.leaderID []
        = some (r.client.leaderID, r.attempts, r.value, r.err) ∧
      r.client.sequenceNumber = (c.sequenceNumber + 1) % 2 ^ 64 ∧ r.client.id = c.id := by
  unfold submitOperation at h
  cases hl : loop world rpc request timeout fuel 0 c.leaderID [] with
  | none => simp [hl] at h
  | some p =>
    obtain ⟨l, atts, v, err⟩ := p
    simp only [hl, Option.some.injEq] at h
    subst h
    exact ⟨rfl, rfl, rfl⟩

/-- A call of `Get` or `Put` that returns has raised the sequence number by one,
as a `uint64`, and every per-node call it made carried the sequence number and the
ID the client had when the call began. -/
theorem run_sequenceNumber {call : ClientCall} {c : Client} {r : Submitted}
    (h : call.run c = some r) :
    r.client.sequenceNumber = (c.sequenceNumber + 1) % 2 ^ 64 ∧ r.client.id = c.id ∧
      ∀ a ∈ r.attempts, a.request.SequenceNumber = c.sequenceNumber ∧
        a.request.Client = c.id := by
  unfold ClientCall.run at h
  cases hrpc : call.rpc with
  | Get =>
    rw [hrpc] at h
    simp only [Get] at h
    obtain ⟨hloop, hseq, hid⟩ := submitOperation_eq h
    have hsend := (loop_spec _ _ _ _ _ _ _ _ _ _ _ _ (AllFailed_nil _)
      (fun a ha => by simp at ha) hloop).1
    exact ⟨hseq, hid, fun a ha => by rw [(hsend a ha).2]; exact ⟨rfl, rfl⟩⟩
  | Put =>
    rw [hrpc] at h
    simp only [Put] at h
    obtain ⟨hloop, hseq, hid⟩ := submitOperation_eq h
    have hsend := (loop_spec _ _ _ _ _ _ _ _ _ _ _ _ (AllFailed_nil _)
      (fun a ha => by simp at ha) hloop).1
    exact ⟨hseq, hid, fun a ha => by rw [(hsend a ha).2]; exact ⟨rfl, rfl⟩⟩

end Client

/-- Along a sequence of calls that return, the sequence number counts the calls as
a `uint64`, and the per-node calls of the `k`-th call carry the number the client
had after `k` calls. -/
theorem runCalls_sequenceNumber (calls : List ClientCall) :
    ∀ (c c' : Client) (traces : List (List Attempt)), c.sequenceNumber < 2 ^ 64 →
      runCalls c calls = some (c', traces) →
      c'.sequenceNumber = (c.sequenceNumber + calls.length) % 2 ^ 64 ∧
      traces.length = calls.length ∧
      ∀ k trace, traces[k]? = some trace → ∀ a ∈ trace,
        a.request.SequenceNumber = (c.sequenceNumber + k) % 2 ^ 64 ∧
        a.request.Client = c.id := by
  induction calls with
  | nil =>
    intro c c' traces hc h
    simp only [runCalls, Option.some.injEq, Prod.mk.injEq] at h
    obtain ⟨h1, h2⟩ := h
    subst h1; subst h2
    refine ⟨by rw [List.length_nil, Nat.add_zero, Nat.mod_eq_of_lt hc], rfl, ?_⟩
    intro k trace hk
    simp at hk
  | cons call rest ih =>
    intro c c' traces hc h
    unfold runCalls at h
    cases hrun : call.run c with
    | none => simp [hrun] at h
    | some r =>
      simp only [hrun] at h
      cases hrest : runCalls r.client rest with
      | none => simp [hrest] at h
      | some p =>
        obtain ⟨c2, traces2⟩ := p
        simp only [hrest, Option.some.injEq, Prod.mk.injEq] at h
        obtain ⟨h1, h2⟩ := h
        subst h1; subst h2
        obtain ⟨hseq, hid, hatt⟩ := Client.run_sequenceNumber hrun
        have hlt : r.client.sequenceNumber < 2 ^ 64 := by
          rw [hseq]; exact Nat.mod_lt _ (by norm_num)
        obtain ⟨hc2, hlen, htr⟩ := ih r.client c2 traces2 hlt hrest
        refine ⟨?_, by simp [hlen], ?_⟩
        · rw [hc2, hseq, List.length_cons]
          omega
        · intro k trace hk a ha
          cases k with
          | zero =>
            simp only [List.getElem?_cons_zero, Option.some.injEq] at hk
            subst hk
            obtain ⟨h1, h2⟩ := hatt a ha
            exact ⟨by rw [h1, Nat.add_zero, Nat.mod_eq_of_lt hc], h2⟩
          | succ k =>
            simp only [List.getElem?_cons_succ] at hk
            obtain ⟨h1, h2⟩ := htr k trace hk a ha
            refine ⟨?_, by rw [h2, hid]⟩
            rw [h1, hseq]
            omega

namespace Client

/-- When the clock reaches the timeout at its `n`-th test, the loop started at an
earlier test returns, given fuel for the tests up to the `n`-th. -/
theorem loop_returns (world : World) (rpc : Rpc) (request : Request) (timeout : Int)
    (n : Nat) (hn : timeout ≤ world.since n) :
    ∀ (k iteration : Nat), iteration + k = n → ∀ (fuel : Nat), k + 1 ≤ fuel →
      ∀ (leaderID : GoString) (attempts : List Attempt),
      ∃ r, loop world rpc request timeout fuel iteration leaderID attempts = some r := by
  intro k
  induction k with
  | zero =>
    intro iteration hk fuel hfuel leaderID attempts
    simp only [Nat.add_zero] at hk
    subst hk
    obtain ⟨f, rfl⟩ : ∃ f, fuel = f + 1 := ⟨fuel - 1, by omega⟩
    unfold loop
    rw [if_neg (not_lt.mpr hn)]
    exact ⟨_, rfl⟩
  | succ k ih =>
    intro iteration hk fuel hfuel leaderID attempts
    obtain ⟨f, rfl⟩ : ∃ f, fuel = f + 1 := ⟨fuel - 1, by omega⟩
    unfold loop
    by_cases hclock : world.since iteration < timeout
    · rw [if_pos hclock]
      by_cases hleader : leaderID ≠ []
      · rw [if_pos hleader]
        cases hcall : world.call attempts.length leaderID rpc request with
        | some value => exact ⟨_, rfl⟩
        | none =>
          simp only
          cases hsw : sweep world rpc request (world.order iteration)
              (attempts ++ [⟨leaderID, rpc, request⟩]) with
          | mk found attempts' =>
            cases found with
            | some p => obtain ⟨id, value⟩ := p; exact ⟨_, rfl⟩
            | none => exact ih (iteration + 1) (by omega) f (by omega) [] attempts'
      · rw [if_neg hleader]
        cases hsw : sweep world rpc request (world.order iteration) attempts with
        | mk found attempts' =>
          cases found with
          | some p => obtain ⟨id, value⟩ := p; exact ⟨_, rfl⟩
          | none => exact ih (iteration + 1) (by omega) f (by omega) leaderID attempts'
    · rw [if_neg hclock]
      exact ⟨_, rfl⟩

/-- A call of `submitOperation` returns when the clock reaches the timeout, given
fuel for the tests of the loop condition up to then. -/
theorem submitOperation_returns (c : Client) (world : World) (rpc : Rpc) (request : Request)
    (timeout : Int) (n : Nat) (hn : timeout ≤ world.since n) (fuel : Nat) (hfuel : n + 1 ≤ fuel) :
    ∃ r, c.submitOperation world rpc request timeout fuel = some r := by
  obtain ⟨⟨l, atts, v, err⟩, hr⟩ :=
    loop_returns world rpc request timeout n hn n 0 (by omega) fuel hfuel c.leaderID []
  refine ⟨⟨{ c with sequenceNumber := (c.sequenceNumber + 1) % 2 ^ 64, leaderID := l },
    atts, v, err⟩, ?_⟩
  simp [submitOperation, hr]

end Client

namespace Client

/-- Once the call to the cached leader has failed, the loop goes on as that of a
client without a leader: the leader ID is cleared before the inner loop runs. -/
theorem loop_leader_failed (world : World) (rpc : Rpc) (request : Request) (timeout : Int)
    (fuel iteration : Nat) (leaderID : GoString) (attempts : List Attempt)
    (hleader : leaderID ≠ []) (hclock : world.since iteration < timeout)
    (hcall : world.call attempts.length leaderID rpc request = none) :
    loop world rpc request timeout fuel iteration leaderID attempts
      = loop world rpc request timeout fuel iteration []
          (attempts ++ [⟨leaderID, rpc, request⟩]) := by
  cases fuel with
  | zero => rfl
  | succ fuel =>
    have hnil : ¬ (([] : GoString) ≠ []) := fun h => h rfl
    rw [loop, loop, if_pos hclock, if_pos hclock, if_pos hleader, if_neg hnil]
    simp only [hcall]

/-- What a call of `submitOperation` that returns has done, read off the loop
invariant. -/
theorem submitOperation_spec {c : Client} {world : World} {rpc : Rpc} {request : Request}
    {timeout : Int} {fuel : Nat} {r : Submitted}
    (h : c.submitOperation world rpc request timeout fuel = some r) :
    (r.err = none ∧ ∃ pre, r.attempts = pre ++ [⟨r.client.leaderID, rpc, request⟩] ∧
        AllFailed world pre ∧
        world.call pre.length r.client.leaderID rpc request = some r.value) ∨
    (r.err = some ErrTimeout ∧ r.value = [] ∧ AllFailed world r.attempts ∧
        ((world.since 0 < timeout ∧ r.client.leaderID = []) ∨
         (¬ world.since 0 < timeout ∧ r.client.leaderID = c.leaderID ∧ r.attempts = []))) :=
  (loop_spec world rpc request timeout fuel 0 c.leaderID [] _ _ _ _ (AllFailed_nil _)
    (fun a ha => by simp at ha) (submitOperation_eq h).1).2

/-- The fast path: with a leader cached, the clock below the timeout at the first
test and the leader answering, one call is made, to the leader. -/
theorem submitOperation_fast_path (c : Client) (world : World) (rpc : Rpc) (request : Request)
    (timeout : Int) (fuel : Nat) (value : GoString)
    (hleader : c.leaderID ≠ []) (hclock : world.since 0 < timeout)
    (hcall : world.call 0 c.leaderID rpc request = some value) :
    c.submitOperation world rpc request timeout (fuel + 1)
      = some ⟨{ c with sequenceNumber := (c.sequenceNumber + 1) % 2 ^ 64 },
          [⟨c.leaderID, rpc, request⟩], value, none⟩ := by
  have hcall' : world.call ([] : List Attempt).length c.leaderID rpc request = some value := hcall
  have hloop : loop world rpc request timeout (fuel + 1) 0 c.leaderID []
      = some (c.leaderID, [⟨c.leaderID, rpc, request⟩], value, none) := by
    rw [loop, if_pos hclock, if_pos hleader]
    simp only [hcall', List.nil_append]
  simp only [submitOperation, hloop]

end Client

/-! ## `Apply` after `Restore` -/

namespace KeyValueStore

theorem Get_congr {a b : KeyValueStore} (h : SameEntries a b) (key : GoString) :
    a.Get key = b.Get key := by
  unfold Get
  rw [h.1 key]

/-- On two stores with the same entries and allocated tables `Apply` of a decodable
operation returns the same response and leaves stores with the same entries and
allocated tables. -/
theorem Apply_congr {a b : KeyValueStore} {operation : Operation} {request : Request}
    (hdec : unmarshalRequest operation.Bytes = some request)
    (h : SameEntries a b) (ha : Allocated a) (hb : Allocated b) :
    ∃ a' b' resp, a.Apply operation = (a', .response resp) ∧
      b.Apply operation = (b', .response resp) ∧
      SameEntries a' b' ∧ Allocated a' ∧ Allocated b' := by
  by_cases hfresh : Fresh a request
  · have hfresh' : Fresh b request := by
      intro session hs
      rw [← h.2] at hs
      exact hfresh session hs
    cases hkind : operation.OperationType with
    | Replicated =>
      obtain ⟨a', h1, h2, h3, h4⟩ := Apply_fresh_write hdec hkind hfresh ha
      obtain ⟨b', g1, g2, g3, g4⟩ := Apply_fresh_write hdec hkind hfresh' hb
      refine ⟨a', b', _, h1, g1, ⟨fun k => ?_, fun c => ?_⟩, h2, g2⟩
      · rw [h3, g3, h.1]
      · rw [h4, g4, h.2]
    | LinearizableReadOnly =>
      obtain ⟨a', h1, h2, h3, h4⟩ := Apply_fresh_read hdec hkind hfresh ha.2
      obtain ⟨b', g1, g2, g3, g4⟩ := Apply_fresh_read hdec hkind hfresh' hb.2
      rw [← Get_congr h request.Key] at g1 g4
      refine ⟨a', b', _, h1, g1, ⟨fun k => ?_, fun c => ?_⟩, ?_, ?_⟩
      · rw [h2, g2, h.1]
      · rw [h4, g4, h.2]
      · exact ⟨by rw [h2]; exact ha.1, h3⟩
      · exact ⟨by rw [g2]; exact hb.1, g3⟩
  · simp only [Fresh, not_forall, Nat.not_lt] at hfresh
    obtain ⟨session, hlook, hseq⟩ := hfresh
    have hlook' : b.sessionTable.lookup request.Client = some session := by
      rw [← h.2]; exact hlook
    exact ⟨a, b, _, Apply_duplicate a operation request session hdec hlook hseq,
      Apply_duplicate b operation request session hdec hlook' hseq, h, ha, hb⟩

end KeyValueStore

/-- The store restored from the snapshot of a reachable store holds the entries of
that store. -/
theorem restoredFrom_sameEntries {s : KeyValueStore} (hs : Reachable s) :
    SameEntries (restoredFrom s) s := by
  obtain ⟨data, kv', hsnap, hres, hk, hc⟩ :=
    KeyValueStore.Snapshot_Restore_wellFormed s (KeyValueStore.Reachable_wellFormed hs).2
      (Writer.buffer []) rfl NewKeyValueStore
  have hbuf : (s.Snapshot (Writer.buffer [])).1.buf = data := by
    rw [hsnap]
    simp [Writer.buffer]
  unfold restoredFrom
  rw [hbuf, hres]
  exact ⟨hk, hc⟩

/-- A restored store is usable when the store had a key and a session: then both
restored tables are allocated, and `Apply` of a decodable operation returns on the
restored store the response it returns on the store itself and leaves the same
entries, with tables allocated for the calls that follow. -/
theorem Apply_restored_nonempty {s : KeyValueStore} (hs : Reachable s)
    {k v : GoString} {c : Nat} {session : Session}
    (hk : s.keyValueTable.lookup k = some v) (hc : s.sessionTable.lookup c = some session)
    {operation : Operation} {request : Request}
    (hdec : unmarshalRequest operation.Bytes = some request) :
    ∃ r' s' resp, (restoredFrom s).Apply operation = (r', .response resp) ∧
      s.Apply operation = (s', .response resp) ∧
      SameEntries r' s' ∧ KeyValueStore.Allocated r' ∧ KeyValueStore.Allocated s' := by
  have hsame := restoredFrom_sameEntries hs
  have halloc : KeyValueStore.Allocated (restoredFrom s) :=
    ⟨GoMap.isAllocated_of_lookup (by rw [hsame.1 k]; exact hk),
     GoMap.isAllocated_of_lookup (by rw [hsame.2 c]; exact hc)⟩
  exact KeyValueStore.Apply_congr hdec hsame halloc (KeyValueStore.Reachable_wellFormed hs).1

/-! ## The claims -/

open KeyValueStore

/-- C1. Deduplication gate of `Apply`: for every store and every operation of
either kind that decodes, if the session table has a session for the client of the
request whose sequence number is at least that of the request, `Apply` returns
the response holding the `LastResult` of that session and leaves the store, that
is both tables, exactly as it was; key and value of the request play no part. -/
theorem Apply_deduplication_gate (kv : KeyValueStore) (operation : Operation)
    (request : Request) (session : Session)
    (hdec : unmarshalRequest operation.Bytes = some request)
    (hsession : kv.sessionTable.lookup request.Client = some session)
    (hseq : session.SequenceNumber ≥ request.SequenceNumber) :
    kv.Apply operation = (kv, .response ⟨session.LastResult⟩) :=
  Apply_duplicate kv operation request session hdec hsession hseq

/-- The third step of `TestApply` is an instance of C1: the duplicate with emptied
key and value is answered with `"y"` from the session. -/
theorem Apply_deduplication_gate_witness :
    unmarshalRequest testDuplicate.Bytes = some ⟨[], [], 1, 2⟩ ∧
    testStore.sessionTable.lookup 1 = some ⟨2, [0x79]⟩ ∧
    testStore.Apply testDuplicate = (testStore, .response ⟨[0x79]⟩) :=
  ⟨by decide, by decide,
    Apply_deduplication_gate testStore testDuplicate ⟨[], [], 1, 2⟩ ⟨2, [0x79]⟩
      (by decide) (by decide) (by decide)⟩

/-- C2, at the failing input. `Restore` of the bytes `Snapshot` writes for the new,
empty store leaves both tables `nil`. On that store the put of `TestApply`, which
decodes and whose client has no session, does not return a response: the call
panics when it stores the new session in the `nil` session table, so the operation
cannot be applied twice with equal responses. -/
theorem Apply_twice_restored_empty :
    (restoredFrom NewKeyValueStore).keyValueTable.isAllocated = false ∧
    (restoredFrom NewKeyValueStore).sessionTable.isAllocated = false ∧
    unmarshalRequest testPut.Bytes = some ⟨[0x78], [0x79], 1, 1⟩ ∧
    ((restoredFrom NewKeyValueStore).Apply testPut).2 = .panic ∧
    ((restoredFrom NewKeyValueStore).applyAll [testPut, testPut]).isNone = true := by
  decide

/-- C3, as stated, fails. From the empty store client 1 puts `"x"` to `"y"` with
sequence number 1 and is answered `"y"`; it then puts `"x"` to `"z"` with sequence
number 2. Applying the first operation again changes nothing but returns `"z"`,
the result of the later request, not the `"y"` it returned at first. -/
theorem replay_after_later_request :
    NewKeyValueStore.sessionTable.lookup 1 = none ∧
    unmarshalRequest testPut.Bytes = some ⟨[0x78], [0x79], 1, 1⟩ ∧
    (NewKeyValueStore.Apply testPut).2 = .response ⟨[0x79]⟩ ∧
    ((NewKeyValueStore.Apply testPut).1.Apply putXZ).2 = .response ⟨[0x7a]⟩ ∧
    (((NewKeyValueStore.Apply testPut).1.Apply putXZ).1.Apply testPut).2
      = .response ⟨[0x7a]⟩ ∧
    (((NewKeyValueStore.Apply testPut).1.Apply putXZ).1.Apply testPut).2
      ≠ .response ⟨[0x79]⟩ := by
  decide

/-- C3, amended. In every sequence of `Apply` calls from the empty store, once a
request of a client has been executed with result `v`, applying it again later,
after any further calls, is answered from the session of that client: the store
is left exactly as it is and the response is the `LastResult` the session holds
then. That is `v` when no request of the same client with a larger sequence
number was applied in between. -/
theorem replay_returns_session_result (before between : List Operation)
    (operation : Operation) (request : Request) (s0 s1 s2 : KeyValueStore)
    (rs0 rs2 : List Response) (v : GoString)
    (hbefore : NewKeyValueStore.applyAll before = some (s0, rs0))
    (hdec : unmarshalRequest operation.Bytes = some request)
    (hfresh : Fresh s0 request)
    (hexec : s0.Apply operation = (s1, .response ⟨v⟩))
    (hbetween : s1.applyAll between = some (s2, rs2)) :
    ∃ session, s2.sessionTable.lookup request.Client = some session ∧
      s2.Apply operation = (s2, .response ⟨session.LastResult⟩) ∧
      ((∀ o ∈ between, ∀ r, unmarshalRequest o.Bytes = some r →
          r.Client = request.Client → r.SequenceNumber ≤ request.SequenceNumber) →
        session.LastResult = v) := by
  have _hreach : Reachable s0 := ⟨before, rs0, hbefore⟩
  have h1 := Apply_fresh_response hdec hfresh hexec
  obtain ⟨session, h2, hle⟩ :=
    applyAll_session_mono between s1 s2 rs2 request.Client _ hbetween h1
  refine ⟨session, h2, Apply_duplicate s2 operation request session hdec h2 hle, ?_⟩
  intro hother
  have h3 := applyAll_session_unchanged between s1 s2 rs2 request.Client _ hbetween h1 hother
  rw [h2] at h3
  cases h3
  rfl

/-- C3, amended, on the sequence of the counterexample: after the put of `"y"` and
the later put of `"z"` the replay of the first is answered from the session. -/
theorem replay_returns_session_result_witness :
    NewKeyValueStore.applyAll [] = some (NewKeyValueStore, []) ∧
    unmarshalRequest testPut.Bytes = some ⟨[0x78], [0x79], 1, 1⟩ ∧
    Fresh NewKeyValueStore ⟨[0x78], [0x79], 1, 1⟩ ∧
    ∃ session,
      ((NewKeyValueStore.Apply testPut).1.Apply putXZ).1.sessionTable.lookup 1
        = some session ∧
      ((NewKeyValueStore.Apply testPut).1.Apply putXZ).1.Apply testPut
        = (((NewKeyValueStore.Apply testPut).1.Apply putXZ).1,
            .response ⟨session.LastResult⟩) ∧
      ((∀ o ∈ [putXZ], ∀ r, unmarshalRequest o.Bytes = some r →
          r.Client = 1 → r.SequenceNumber ≤ 1) → session.LastResult = [0x79]) :=
  have hfresh : Fresh NewKeyValueStore ⟨[0x78], [0x79], 1, 1⟩ := fun _ h => nomatch h
  ⟨rfl, by decide, hfresh,
    replay_returns_session_result [] [putXZ] testPut ⟨[0x78], [0x79], 1, 1⟩
      NewKeyValueStore (NewKeyValueStore.Apply testPut).1
      ((NewKeyValueStore.Apply testPut).1.Apply putXZ).1 [] [⟨[0x7a]⟩] [0x79]
      rfl (by decide) hfresh rfl rfl⟩

/-- C4. Snapshot round trip: for every store that `Apply` calls lead to from the
empty store, and for the store whose tables `TestSnapshotRestore` assigns,
`Snapshot` into a `bytes.Buffer` (the writer of the test, holding any bytes
before) succeeds and appends its bytes to the buffer, and `Restore` on a fresh
`KeyValueStore` of exactly the bytes `Snapshot` wrote succeeds and leaves a
key-value table with the same value under every key and a session table with the
same clients, each with the same sequence number and the same `LastResult`. -/
theorem Snapshot_Restore_round_trip (kv : KeyValueStore) (buffer : Bytes)
    (hkv : Reachable kv ∨ kv = testSnapshotStore) :
    ∃ data kv', kv.Snapshot (Writer.buffer buffer) = (Writer.buffer (buffer ++ data), none) ∧
      NewKeyValueStore.Restore { data := data } = (kv', none) ∧
      (∀ k, kv'.keyValueTable.lookup k = kv.keyValueTable.lookup k) ∧
      (∀ c, kv'.sessionTable.lookup c = kv.sessionTable.lookup c) := by
  have hwf : WellFormed kv := by
    rcases hkv with h | h
    · exact (Reachable_wellFormed h).2
    · rw [h]; exact testSnapshotStore_wellFormed
  exact Snapshot_Restore_wellFormed kv hwf (Writer.buffer buffer) rfl NewKeyValueStore

/-- C4 on the store of `TestApply` after its put and its get, which the two calls
reach from the empty store, and a new `bytes.Buffer`. -/
theorem Snapshot_Restore_round_trip_witness :
    (Reachable testStore ∨ testStore = testSnapshotStore) ∧
    ∃ data kv',
      testStore.Snapshot (Writer.buffer []) = (Writer.buffer ([] ++ data), none) ∧
      NewKeyValueStore.Restore { data := data } = (kv', none) ∧
      (∀ k, kv'.keyValueTable.lookup k = testStore.keyValueTable.lookup k) ∧
      (∀ c, kv'.sessionTable.lookup c = testStore.sessionTable.lookup c) :=
  have hreach : Reachable testStore :=
    ⟨[testPut, testGet], [⟨[0x79]⟩, ⟨[0x79]⟩], rfl⟩
  ⟨Or.inl hreach, Snapshot_Restore_round_trip testStore [] (Or.inl hreach)⟩

/-- C5, at the failing input. After one read by client 1 the store has a session
but no key; `Restore` of the bytes `Snapshot` writes for it leaves the session
table allocated and the key-value table `nil`. On that store the put of `"x"` to
`"z"` by client 1 with the next sequence number, which decodes, is `Replicated`
and is no duplicate, does not return a response: `Put` panics on the `nil`
table. -/
theorem Apply_write_restored_without_keys :
    (restoredFrom (NewKeyValueStore.Apply readX).1).keyValueTable.isAllocated = false ∧
    (restoredFrom (NewKeyValueStore.Apply readX).1).sessionTable.lookup 1 = some ⟨1, []⟩ ∧
    unmarshalRequest putXZ.Bytes = some ⟨[0x78], [0x7a], 1, 2⟩ ∧
    putXZ.OperationType = .Replicated ∧
    ((restoredFrom (NewKeyValueStore.Apply readX).1).Apply putXZ).2 = .panic := by
  decide

/-- C6, at the failing input. On the store that `Restore` leaves from the snapshot
of the empty store (both tables `nil`) the read of `TestApply`, which decodes, is
`LinearizableReadOnly` and comes from a client without a session, does not return
a response: the call panics when it stores the new session. -/
theorem Apply_read_restored_empty :
    (restoredFrom NewKeyValueStore).sessionTable.isAllocated = false ∧
    (restoredFrom NewKeyValueStore).sessionTable.lookup 1 = none ∧
    unmarshalRequest testGet.Bytes = some ⟨[0x78], [0x79], 1, 2⟩ ∧
    testGet.OperationType = .LinearizableReadOnly ∧
    ((restoredFrom NewKeyValueStore).Apply testGet).2 = .panic := by
  decide

/-- C7. Session monotonicity: a client that has a session before a call of `Apply`
still has one when the call ends, however it ends, with a sequence number that is
not smaller; and so along every sequence of `Apply` calls no session is removed
and no sequence number goes down. -/
theorem session_monotonicity (kv : KeyValueStore) (c : Nat) (s : Session)
    (h : kv.sessionTable.lookup c = some s) :
    (∀ operation, ∃ s', (kv.Apply operation).1.sessionTable.lookup c = some s' ∧
        s.SequenceNumber ≤ s'.SequenceNumber) ∧
    (∀ operations kv' responses, kv.applyAll operations = some (kv', responses) →
      ∃ s', kv'.sessionTable.lookup c = some s' ∧ s.SequenceNumber ≤ s'.SequenceNumber) :=
  ⟨fun operation => Apply_session_mono kv operation c s h,
   fun operations kv' responses hrun =>
     applyAll_session_mono operations kv kv' responses c s hrun h⟩

/-- C7 at the store of `TestApply` after its put: client 1 has a session there. -/
theorem session_monotonicity_witness :
    (NewKeyValueStore.Apply testPut).1.sessionTable.lookup 1 = some ⟨1, [0x79]⟩ ∧
    ((∀ operation, ∃ s', ((NewKeyValueStore.Apply testPut).1.Apply operation).1.sessionTable.lookup 1
        = some s' ∧ 1 ≤ s'.SequenceNumber) ∧
     (∀ operations kv' responses,
        (NewKeyValueStore.Apply testPut).1.applyAll operations = some (kv', responses) →
        ∃ s', kv'.sessionTable.lookup 1 = some s' ∧ 1 ≤ s'.SequenceNumber)) :=
  ⟨by decide, session_monotonicity (NewKeyValueStore.Apply testPut).1 1 ⟨1, [0x79]⟩ (by decide)⟩

/-- C8. `Get` on a missing key: for every store and every key that is not in the
key-value table (the table may even be `nil`), `Get` returns the empty string; it
is a read, so it cannot fail and the store is not touched. A missing key cannot be
told from one stored with the empty string: storing `""` under it changes the
result of no `Get`. -/
theorem Get_missing_key (kv : KeyValueStore) (key : GoString)
    (h : kv.keyValueTable.lookup key = none) :
    kv.Get key = [] ∧
    ∀ kv' v, kv.Put key [] = some (kv', v) → ∀ k, kv'.Get k = kv.Get k := by
  refine ⟨by simp [Get, h], ?_⟩
  intro kv' v hput k
  unfold Put at hput
  cases hassign : kv.keyValueTable.assign key [] with
  | none => simp [hassign] at hput
  | some t =>
    simp only [hassign, Option.some.injEq, Prod.mk.injEq] at hput
    rw [← hput.1]
    simp only [Get]
    rw [GoMap.lookup_assign hassign k]
    by_cases hk : k = key
    · subst hk; simp [h]
    · simp [hk]

/-- C8 at the new store and the key `"x"`. -/
theorem Get_missing_key_witness :
    NewKeyValueStore.keyValueTable.lookup [0x78] = none ∧
    (NewKeyValueStore.Get [0x78] = [] ∧
      ∀ kv' v, NewKeyValueStore.Put [0x78] [] = some (kv', v) →
        ∀ k, kv'.Get k = NewKeyValueStore.Get k) :=
  ⟨by decide, Get_missing_key NewKeyValueStore [0x78] (by decide)⟩

/-- C9, at the failing input. On the store that `Restore` leaves from the snapshot
of a store without keys the key-value table is `nil`, and `Put` of `"x"` to `"y"`
panics instead of returning `"y"`. -/
theorem Put_restored_without_keys :
    (restoredFrom (NewKeyValueStore.Apply readX).1).keyValueTable.isAllocated = false ∧
    ((restoredFrom (NewKeyValueStore.Apply readX).1).Put [0x78] [0x79]).isNone = true := by
  decide

/-- C10. Snapshot threshold: for every store and every integer `logSize`,
`NeedSnapshot` is true exactly when `logSize ≥ 1000`; the store plays no part. -/
theorem NeedSnapshot_threshold (kv : KeyValueStore) (logSize : Int) :
    kv.NeedSnapshot logSize = true ↔ logSize ≥ 1000 := by
  simp [NeedSnapshot, snapshotSize]

/-- C11. `Restore` fails without a trace: when reading the snapshot source fails,
or when the bytes read do not deserialize, `Restore` returns that very error and
the store, that is both tables, is exactly as it was before the call. -/
theorem Restore_failure_atomic (kv : KeyValueStore) (snapshotReader : Reader) (err : Error)
    (h : snapshotReader.err = some err ∨
      (snapshotReader.err = none ∧ unmarshalKeyValueStore snapshotReader.data = .error err)) :
    kv.Restore snapshotReader = (kv, some err) := by
  obtain ⟨data, rerr⟩ := snapshotReader
  rcases h with h | ⟨h1, h2⟩
  · simp only at h
    subst h
    simp [Restore, Reader.readAll]
  · simp only at h1 h2
    subst h1
    simp [Restore, Reader.readAll, h2]

/-- C11 on the store of `TestApply` and a source that yields the one byte `0x0a`, a
tag without its field, which does not deserialize. -/
theorem Restore_failure_atomic_witness :
    (({ data := [0x0a] } : Reader).err = some Error.proto ∨
      (({ data := [0x0a] } : Reader).err = none ∧
        unmarshalKeyValueStore ({ data := [0x0a] } : Reader).data = .error .proto)) ∧
    testStore.Restore { data := [0x0a] } = (testStore, some .proto) :=
  ⟨Or.inr ⟨rfl, rfl⟩,
    Restore_failure_atomic testStore { data := [0x0a] } .proto (Or.inr ⟨rfl, rfl⟩)⟩

/-- C18, at the failing input. After one read by client 1 the store has a session
but no key; `Restore` of the bytes `Snapshot` writes for it leaves the key-value
table `nil`. On that store the put by client 2 with sequence number 5, which
decodes and is no duplicate, does not return a response: `Put` panics on the
`nil` table, and the call ends with the session of client 2 as it was created,
with sequence number 0 and not 5. -/
theorem Apply_session_restored_without_keys :
    (restoredFrom (NewKeyValueStore.Apply readX).1).keyValueTable.isAllocated = false ∧
    unmarshalRequest putByClient2.Bytes = some ⟨[0x78], [0x79], 2, 5⟩ ∧
    (restoredFrom (NewKeyValueStore.Apply readX).1).sessionTable.lookup 2 = none ∧
    ((restoredFrom (NewKeyValueStore.Apply readX).1).Apply putByClient2).2 = .panic ∧
    ((restoredFrom (NewKeyValueStore.Apply readX).1).Apply putByClient2).1.sessionTable.lookup 2
      = some ⟨0, []⟩ := by
  decide

/-- C19, at the failing input. On the store that `Restore` leaves from the snapshot
of the empty store (both tables `nil`) the put by client 1 with sequence number 0,
which decodes and whose client has no session, is not executed and no session is
created: the call panics when it stores the new session. -/
theorem Apply_new_client_restored_empty :
    (restoredFrom NewKeyValueStore).sessionTable.isAllocated = false ∧
    unmarshalRequest putSeq0.Bytes = some ⟨[0x78], [0x79], 1, 0⟩ ∧
    (restoredFrom NewKeyValueStore).sessionTable.lookup 1 = none ∧
    ((restoredFrom NewKeyValueStore).Apply putSeq0).2 = .panic ∧
    ((restoredFrom NewKeyValueStore).Apply putSeq0).1.sessionTable.lookup 1 = none ∧
    ((restoredFrom NewKeyValueStore).Apply putSeq0).1.keyValueTable.lookup [0x78] = none := by
  decide

/-- C20. `Restore` replaces, it does not merge: for every store `t` before the call
and every source that is read and deserializes to a snapshot `m`, the tables after
`Restore` are exactly the tables of `m`; they are the same whatever `t` was, and
a key or a session that the snapshot does not have is not there afterwards, also
when `t` had it. -/
theorem Restore_replaces (t : KeyValueStore) (snapshotReader : Reader)
    (m : ProtoKeyValueStore) (hread : snapshotReader.err = none)
    (hdec : unmarshalKeyValueStore snapshotReader.data = .ok m) :
    t.Restore snapshotReader
      = ({ keyValueTable := m.KeyValueTable, sessionTable := m.SessionTable }, none) ∧
    (∀ t' : KeyValueStore, t'.Restore snapshotReader = t.Restore snapshotReader) ∧
    (∀ k, m.KeyValueTable.lookup k = none →
      (t.Restore snapshotReader).1.keyValueTable.lookup k = none) ∧
    (∀ c, m.SessionTable.lookup c = none →
      (t.Restore snapshotReader).1.sessionTable.lookup c = none) := by
  obtain ⟨data, rerr⟩ := snapshotReader
  simp only at hread hdec
  subst hread
  have h : ∀ t' : KeyValueStore, t'.Restore { data := data, err := none }
      = ({ keyValueTable := m.KeyValueTable, sessionTable := m.SessionTable }, none) := by
    intro t'
    simp [Restore, Reader.readAll, hdec]
  refine ⟨h t, fun t' => by rw [h t', h t], fun k hk => ?_, fun c hc => ?_⟩
  · rw [h t]; exact hk
  · rw [h t]; exact hc

/-- C20 on the store of `TestApply`, which has the key `"x"` and a session of
client 1, and the snapshot of the store of `TestSnapshotRestore` read from the
bytes `Snapshot` wrote for it. -/
theorem Restore_replaces_witness :
    (({ data := (testSnapshotStore.Snapshot (Writer.buffer [])).1.buf } : Reader).err = none) ∧
    (testStore.Restore { data := (testSnapshotStore.Snapshot (Writer.buffer [])).1.buf }
      = ({ keyValueTable := (restoredFrom testSnapshotStore).keyValueTable,
           sessionTable := (restoredFrom testSnapshotStore).sessionTable }, none) ∧
    (∀ t' : KeyValueStore,
      t'.Restore { data := (testSnapshotStore.Snapshot (Writer.buffer [])).1.buf }
        = testStore.Restore { data := (testSnapshotStore.Snapshot (Writer.buffer [])).1.buf }) ∧
    (∀ k, (restoredFrom testSnapshotStore).keyValueTable.lookup k = none →
      (testStore.Restore
        { data := (testSnapshotStore.Snapshot (Writer.buffer [])).1.buf }).1.keyValueTable.lookup k
        = none) ∧
    (∀ c, (restoredFrom testSnapshotStore).sessionTable.lookup c = none →
      (testStore.Restore
        { data := (testSnapshotStore.Snapshot (Writer.buffer [])).1.buf }).1.sessionTable.lookup c
        = none)) :=
  ⟨rfl, Restore_replaces testStore
    { data := (testSnapshotStore.Snapshot (Writer.buffer [])).1.buf }
    { KeyValueTable := (restoredFrom testSnapshotStore).keyValueTable,
      SessionTable := (restoredFrom testSnapshotStore).sessionTable } rfl rfl⟩

/-- C16. `ParseCluster`: for every list of strings it succeeds (returns a `nil`
error) exactly when every member contains a `':'`. On success it returns an
allocated map in which a member `id:address`, split at its first `':'`, after
which no member has the same ID, puts `address`, all the text after that `':'`,
under `id`, and in which every entry comes from such a member. On failure it
returns the error and the `nil` map. -/
theorem ParseCluster_spec (cluster : List GoString) :
    ((ParseCluster cluster).2 = none ↔ ∀ member ∈ cluster, (0x3a : UInt8) ∈ member) ∧
    ((ParseCluster cluster).2 = none →
      (ParseCluster cluster).1.isAllocated = true ∧
      (∀ pre post id address, cluster = pre ++ (id ++ 0x3a :: address) :: post →
        (0x3a : UInt8) ∉ id →
        (∀ member ∈ post, ∀ address', member ≠ id ++ 0x3a :: address') →
        (ParseCluster cluster).1.lookup id = some address) ∧
      (∀ id address, (ParseCluster cluster).1.lookup id = some address →
        ∃ member ∈ cluster, member = id ++ 0x3a :: address ∧ (0x3a : UInt8) ∉ id)) ∧
    ((ParseCluster cluster).2 ≠ none →
      (ParseCluster cluster).1.isAllocated = false ∧
      (ParseCluster cluster).2 = some ⟨cluster⟩) := by
  refine ⟨parseMembers_ok_iff cluster cluster ∅, fun hok => ⟨?_, ?_, ?_⟩, fun hfail => ?_⟩
  · rcases parseMembers_result cluster cluster ∅ with ⟨t, ht⟩ | hnil
    · unfold ParseCluster; rw [ht]; rfl
    · unfold ParseCluster at hok; rw [hnil] at hok; cases hok
  · intro pre post id address hsplit hid hother
    unfold ParseCluster at hok ⊢
    have := parseMembers_lookup_last cluster id address post pre ∅
    rw [← hsplit] at this
    exact this hok hid hother
  · intro id address hlook
    rcases parseMembers_lookup_origin cluster cluster ∅ id address hlook with h | h
    · exact h
    · cases h
  · rcases parseMembers_result cluster cluster ∅ with ⟨t, ht⟩ | hnil
    · unfold ParseCluster at hfail; rw [ht] at hfail; exact absurd rfl hfail
    · unfold ParseCluster; rw [hnil]; exact ⟨rfl, rfl⟩

/-- The test `TestParseCluster`: the three members parse, and each ID is mapped to
the address after its first `':'`. -/
theorem ParseCluster_test :
    (ParseCluster testCluster).2 = none ∧
    (ParseCluster testCluster).1.lookup (goString "n1") = some (goString "127.0.0.0:8080") ∧
    (ParseCluster testCluster).1.lookup (goString "n2") = some (goString "127.0.0.1:8080") ∧
    (ParseCluster testCluster).1.lookup (goString "n3") = some (goString "127.0.0.2:8080") ∧
    (ParseCluster [goString "n1:a", goString "n2"]).1.isAllocated = false ∧
    (ParseCluster [goString "n1:a", goString "n1:b"]).1.lookup (goString "n1")
      = some (goString "b") := by
  decide

/-- C17, as stated, fails. A request whose key is the byte `0xff` is not UTF-8
and does not serialize; `Get` and `Put` of the server end in `log.Fatalf` on it and
submit nothing, where the claim has one submission for every request. -/
theorem router_request_not_serialized :
    marshalRequest ⟨[0xff], [], 1, 1⟩ = none ∧
    (testServer.Get ⟨[0xff], [], 1, 1⟩).2 = .fatal ∧
    (testServer.Get ⟨[0xff], [], 1, 1⟩).1.node.submitted = [] ∧
    (testServer.Put ⟨[0xff], [], 1, 1⟩).2 = .fatal ∧
    (testServer.Put ⟨[0xff], [], 1, 1⟩).1.node.submitted = [] := by
  decide

/-- C17, amended. For every request that serializes, to the bytes `operation`,
`Get` of the server submits them with kind `LinearizableReadOnly` and `Put` with
kind `Replicated`, each in one submission with the deadline of 500 ms. When the
engine answers with a success the router returns the response of the state
machine and a `nil` error; `raft.ErrNotLeader` becomes a `nil` response with
`ErrNotLeader`, whose code is `FailedPrecondition`; `raft.ErrTimeout` becomes a
`nil` response with `ErrTimeout`, whose code is `Unavailable`; on any other error
of the engine nothing is returned, the process ends in `log.Fatalf`. A request
that does not serialize ends in `log.Fatalf` before anything is submitted. -/
theorem router_outcome_translation (s : Server) (request : Request) (operation : Bytes)
    (hmarshal : marshalRequest request = some operation) :
    Server.Translates s ⟨operation, .LinearizableReadOnly, Server.futureTimeout⟩ (s.Get request) ∧
    Server.Translates s ⟨operation, .Replicated, Server.futureTimeout⟩ (s.Put request) ∧
    Server.futureTimeout = 500000000 ∧
    Server.ErrNotLeader.code = .FailedPrecondition ∧ Server.ErrTimeout.code = .Unavailable ∧
    (∀ (kind : OperationType) (request' : Request), marshalRequest request' = none →
      s.submitOperation request' kind = (s, .fatal)) := by
  have key : ∀ kind, Server.Translates s ⟨operation, kind, Server.futureTimeout⟩
      (s.submitOperation request kind) := by
    intro kind
    unfold Server.Translates Server.submitOperation Node.SubmitOperation
    rw [hmarshal]
    simp only
    cases h : s.node.await s.node.submitted ⟨operation, kind, Server.futureTimeout⟩ with
    | success response => simp
    | failure err => cases err <;> simp
  refine ⟨key _, key _, by decide, rfl, rfl, ?_⟩
  intro kind request' h
  simp [Server.submitOperation, h]

/-- C17, amended, on the request of `TestApply`, which serializes, and a server
whose engine answers with the response `"y"`. -/
theorem router_outcome_translation_witness :
    marshalRequest ⟨[0x78], [0x79], 1, 1⟩ = some testPut.Bytes ∧
    (Server.Translates testServer ⟨testPut.Bytes, .LinearizableReadOnly, Server.futureTimeout⟩
        (testServer.Get ⟨[0x78], [0x79], 1, 1⟩) ∧
      Server.Translates testServer ⟨testPut.Bytes, .Replicated, Server.futureTimeout⟩
        (testServer.Put ⟨[0x78], [0x79], 1, 1⟩) ∧
      Server.futureTimeout = 500000000 ∧
      Server.ErrNotLeader.code = .FailedPrecondition ∧ Server.ErrTimeout.code = .Unavailable ∧
      (∀ (kind : OperationType) (request' : Request), marshalRequest request' = none →
        testServer.submitOperation request' kind = (testServer, .fatal))) :=
  ⟨by decide, router_outcome_translation testServer ⟨[0x78], [0x79], 1, 1⟩ testPut.Bytes
    (by decide)⟩

/-- C12, as stated, fails. The sequence number is a `uint64`: on a client whose
sequence number is `2^64 - 1` a `Get` that returns leaves the number 0, which is
not one more, and the call after it sends 0 again as the first call did. -/
theorem sequenceNumber_wraps :
    ((testClient (2 ^ 64 - 1) []).Get (testWorld 0) (goString "x") 100000000 1).map
        (fun r => (r.client.sequenceNumber, r.err)) = some (0, none) ∧
    ((testClient (2 ^ 64 - 1) []).Get (testWorld 0) (goString "x") 100000000 1).map
        (fun r => r.client.sequenceNumber) ≠ some (2 ^ 64 - 1 + 1) := by
  decide

/-- C12, amended. A new client starts with sequence number 0. Every call of `Get`
or `Put` that returns, whatever its outcome and however many per-node calls it
made, has raised the sequence number by one modulo `2^64` (the field is a
`uint64`), and every per-node call it made carried the sequence number and the ID
the client had when the call began. So after any calls on a new client the number
is their count modulo `2^64`, and the `k`-th call, counting from 0, sends
`k mod 2^64`, which is `k` below `2^64`. A call returns whenever the clock reaches
the timeout. -/
theorem client_sequence_numbers (uuid : Option Nat) (dialFails : GoString → Bool)
    (nodes : GoMap GoString GoString) (c c' : Client) (calls : List ClientCall)
    (traces : List (List Attempt))
    (hnew : Client.NewClient uuid dialFails nodes = some c)
    (hrun : runCalls c calls = some (c', traces)) :
    c.sequenceNumber = 0 ∧
    c'.sequenceNumber = calls.length % 2 ^ 64 ∧
    traces.length = calls.length ∧
    (∀ k trace, traces[k]? = some trace → ∀ a ∈ trace,
      a.request.SequenceNumber = k % 2 ^ 64 ∧ a.request.Client = c.id) ∧
    (∀ (call : ClientCall) (d : Client) (r : Submitted), call.run d = some r →
      r.client.sequenceNumber = (d.sequenceNumber + 1) % 2 ^ 64 ∧
      ∀ a ∈ r.attempts, a.request.SequenceNumber = d.sequenceNumber ∧
        a.request.Client = d.id) ∧
    (∀ (d : Client) (world : World) (rpc : Rpc) (request : Request) (timeout : Int) (n : Nat),
      timeout ≤ world.since n → ∀ fuel, n + 1 ≤ fuel →
        ∃ r, d.submitOperation world rpc request timeout fuel = some r) := by
  have h0 := (Client.NewClient_zero hnew).1
  obtain ⟨h1, h2, h3⟩ := runCalls_sequenceNumber calls c c' traces (by rw [h0]; norm_num) hrun
  rw [h0, Nat.zero_add] at h1
  refine ⟨h0, h1, h2, ?_, ?_, ?_⟩
  · intro k trace hk a ha
    have := h3 k trace hk a ha
    rw [h0, Nat.zero_add] at this
    exact this
  · intro call d r hr
    obtain ⟨ha, _, hb⟩ := Client.run_sequenceNumber hr
    exact ⟨ha, hb⟩
  · intro d world rpc request timeout n hn fuel hfuel
    exact Client.submitOperation_returns d world rpc request timeout n hn fuel hfuel

/-- C12, amended, on a new client of three nodes and two calls: the `Get` calls
`a` and `b` with sequence number 0, the `Put` calls `b` with sequence number 1, and
the client is left with sequence number 2. -/
theorem client_sequence_numbers_witness :
    Client.NewClient (some 7) (fun _ => false) testNodes = some newTestClient ∧
    runCalls newTestClient testCalls
      = some ({ newTestClient with sequenceNumber := 2, leaderID := goString "b" },
          [[⟨goString "a", .Get, ⟨goString "x", [], 7, 0⟩⟩,
            ⟨goString "b", .Get, ⟨goString "x", [], 7, 0⟩⟩],
           [⟨goString "b", .Put, ⟨goString "x", goString "y", 7, 1⟩⟩]]) ∧
    newTestClient.sequenceNumber = 0 ∧
    ({ newTestClient with sequenceNumber := 2, leaderID := goString "b" } : Client).sequenceNumber
      = testCalls.length % 2 ^ 64 :=
  have h := client_sequence_numbers (some 7) (fun _ => false) testNodes newTestClient
    { newTestClient with sequenceNumber := 2, leaderID := goString "b" } testCalls
    [[⟨goString "a", .Get, ⟨goString "x", [], 7, 0⟩⟩,
      ⟨goString "b", .Get, ⟨goString "x", [], 7, 0⟩⟩],
     [⟨goString "b", .Put, ⟨goString "x", goString "y", 7, 1⟩⟩]] rfl rfl
  ⟨rfl, rfl, h.1, h.2.1⟩

/-- C13, as stated, fails on two counts. A positive timeout does not make the loop
run: with a timeout of 1 ns and a clock that reads 50 ns at the first test, a
client whose cached leader `b` would answer makes no call and returns
`ErrTimeout`. And a node whose ID is the empty string is never cached: after a
call in which `a` failed and the node `""` answered, the leader ID is `""`, which
means no leader, and the next call probes `a` again before it reaches that node. -/
theorem fast_path_not_taken :
    ((0 : Int) < 1 ∧ (testClient 1 (goString "b")).leaderID ≠ [] ∧
      (testWorld 50).call 0 (goString "b") .Get ⟨goString "x", [], 7, 1⟩
        = some (goString "y") ∧
      ((testClient 1 (goString "b")).Get (testWorld 50) (goString "x") 1 1).map
          (fun r => (r.attempts, r.value, r.err, r.client.leaderID))
        = some ([], [], some Client.ErrTimeout, goString "b")) ∧
    (((testClient 0 []).Get emptyIDWorld (goString "x") 100000000 1).map
          (fun r => (r.attempts.map (fun a => a.node), r.value, r.err, r.client.leaderID))
        = some ([goString "a", []], goString "y", none, []) ∧
      (((testClient 0 []).Get emptyIDWorld (goString "x") 100000000 1).bind
          (fun r => r.client.Get emptyIDWorld (goString "x") 100000000 1)).map
          (fun r => r.attempts.map (fun a => a.node))
        = some [goString "a", []]) := by
  decide

/-- C13, amended. If the leader ID is not empty when `submitOperation` starts, the
clock reads less than the timeout at the first test of the loop condition, and the
call to the cached leader succeeds, then exactly one per-node call is made, to the
cached leader, its value is returned with no error and the leader ID is unchanged.
In particular, when the client is the one left by an earlier call that returned
without an error, that call ended with the answer of the node now cached, after
calls that all failed, and the next operation calls that node alone, provided its
ID is not the empty string. -/
theorem leader_fast_path (c : Client) (world : World) (rpc : Rpc) (request : Request)
    (timeout : Int) (fuel : Nat) (value : GoString)
    (hleader : c.leaderID ≠ [])
    (hclock : world.since 0 < timeout)
    (hcall : world.call 0 c.leaderID rpc request = some value) :
    (∃ r, c.submitOperation world rpc request timeout (fuel + 1) = some r ∧
      r.attempts = [⟨c.leaderID, rpc, request⟩] ∧ r.value = value ∧ r.err = none ∧
      r.client.leaderID = c.leaderID) ∧
    (∀ (c0 : Client) (world0 : World) (rpc0 : Rpc) (request0 : Request) (timeout0 : Int)
      (fuel0 : Nat) (r0 : Submitted),
      c0.submitOperation world0 rpc0 request0 timeout0 fuel0 = some r0 → r0.err = none →
      r0.client = c →
      ∃ pre, r0.attempts = pre ++ [⟨c.leaderID, rpc0, request0⟩] ∧ AllFailed world0 pre ∧
        world0.call pre.length c.leaderID rpc0 request0 = some r0.value) := by
  refine ⟨⟨_, Client.submitOperation_fast_path c world rpc request timeout fuel value
    hleader hclock hcall, rfl, rfl, rfl, rfl⟩, ?_⟩
  intro c0 world0 rpc0 request0 timeout0 fuel0 r0 h0 herr hc
  rcases Client.submitOperation_spec h0 with ⟨_, pre, h1, h2, h3⟩ | ⟨he, _⟩
  · rw [hc] at h1 h3
    exact ⟨pre, h1, h2, h3⟩
  · rw [herr] at he
    cases he

/-- C13, amended, on the client that a first call left with the leader `b`: the
next `Get`, with a timeout of 100 ms and the clock at 0, calls `b` alone and
returns its value. -/
theorem leader_fast_path_witness :
    (testClient 1 (goString "b")).leaderID ≠ [] ∧
    (testWorld 0).since 0 < 100000000 ∧
    (testWorld 0).call 0 (testClient 1 (goString "b")).leaderID .Get
      ⟨goString "x", [], 7, 1⟩ = some (goString "y") ∧
    ∃ r, (testClient 1 (goString "b")).submitOperation (testWorld 0) .Get
        ⟨goString "x", [], 7, 1⟩ 100000000 1 = some r ∧
      r.attempts = [⟨goString "b", .Get, ⟨goString "x", [], 7, 1⟩⟩] ∧
      r.value = goString "y" ∧ r.err = none ∧ r.client.leaderID = goString "b" :=
  ⟨by decide, by decide, by decide,
    (leader_fast_path (testClient 1 (goString "b")) (testWorld 0) .Get
      ⟨goString "x", [], 7, 1⟩ 100000000 0 (goString "y")
      (by decide) (by decide) (by decide)).1⟩

/-- C14. The leader ID of a new client is empty. When `submitOperation` returns
without an error, the leader ID is the ID of the node that made the last per-node
call, that node answered with the value returned, and every call before it failed.
When the call to the cached leader fails, the run goes on as that of a client
whose leader ID is empty, so the ID is cleared before another node is tried; and
when `submitOperation` returns an error, the error is `ErrTimeout`, and the leader
ID is empty if the loop was entered, and unchanged with no call made if it was
not. -/
theorem leader_hint_maintenance (c : Client) (world : World) (rpc : Rpc) (request : Request)
    (timeout : Int) (fuel : Nat) (r : Submitted)
    (h : c.submitOperation world rpc request timeout fuel = some r) :
    (∀ uuid dialFails nodes d, Client.NewClient uuid dialFails nodes = some d →
      d.leaderID = []) ∧
    (r.err = none →
      ∃ pre, r.attempts = pre ++ [⟨r.client.leaderID, rpc, request⟩] ∧ AllFailed world pre ∧
        world.call pre.length r.client.leaderID rpc request = some r.value) ∧
    (∀ (fuel0 iteration : Nat) (leaderID : GoString) (attempts : List Attempt),
      leaderID ≠ [] → world.since iteration < timeout →
      world.call attempts.length leaderID rpc request = none →
      Client.loop world rpc request timeout fuel0 iteration leaderID attempts
        = Client.loop world rpc request timeout fuel0 iteration []
            (attempts ++ [⟨leaderID, rpc, request⟩])) ∧
    (r.err ≠ none →
      r.err = some Client.ErrTimeout ∧
      (world.since 0 < timeout → r.client.leaderID = []) ∧
      (¬ world.since 0 < timeout → r.client.leaderID = c.leaderID ∧ r.attempts = [])) := by
  refine ⟨?_, ?_, ?_, ?_⟩
  · intro uuid dialFails nodes d hd
    exact (Client.NewClient_zero hd).2
  · intro herr
    rcases Client.submitOperation_spec h with ⟨_, hpre⟩ | ⟨he, _⟩
    · exact hpre
    · rw [herr] at he
      cases he
  · intro fuel0 iteration leaderID attempts hl hc hcall
    exact Client.loop_leader_failed world rpc request timeout fuel0 iteration leaderID attempts
      hl hc hcall
  · intro herr
    rcases Client.submitOperation_spec h with ⟨he, _⟩ | ⟨he, _, _, hl⟩
    · exact absurd he herr
    · refine ⟨he, ?_, ?_⟩
      · intro hclock
        rcases hl with ⟨_, hl⟩ | ⟨hn, _⟩
        · exact hl
        · exact absurd hclock hn
      · intro hclock
        rcases hl with ⟨hc, _⟩ | ⟨_, hl, ha⟩
        · exact absurd hc hclock
        · exact ⟨hl, ha⟩

/-- C14 on a client whose cached leader `a` fails: the call goes to `a`, then to
`a` and `b` in the inner loop, and leaves `b` as the leader with its value. -/
theorem leader_hint_maintenance_witness :
    (testClient 1 (goString "a")).submitOperation (testWorld 0) .Get
        ⟨goString "x", [], 7, 1⟩ 100000000 1
      = some ⟨testClient 2 (goString "b"),
          [⟨goString "a", .Get, ⟨goString "x", [], 7, 1⟩⟩,
           ⟨goString "a", .Get, ⟨goString "x", [], 7, 1⟩⟩,
           ⟨goString "b", .Get, ⟨goString "x", [], 7, 1⟩⟩], goString "y", none⟩ ∧
    ∃ pre, [⟨goString "a", .Get, ⟨goString "x", [], 7, 1⟩⟩,
           ⟨goString "a", .Get, ⟨goString "x", [], 7, 1⟩⟩,
           ⟨goString "b", .Get, ⟨goString "x", [], 7, 1⟩⟩]
        = pre ++ [(⟨goString "b", .Get, ⟨goString "x", [], 7, 1⟩⟩ : Attempt)] ∧
      AllFailed (testWorld 0) pre ∧
      (testWorld 0).call pre.length (goString "b") .Get ⟨goString "x", [], 7, 1⟩
        = some (goString "y") :=
  ⟨rfl, (leader_hint_maintenance (testClient 1 (goString "a")) (testWorld 0) .Get
    ⟨goString "x", [], 7, 1⟩ 100000000 1
    ⟨testClient 2 (goString "b"),
      [⟨goString "a", .Get, ⟨goString "x", [], 7, 1⟩⟩,
       ⟨goString "a", .Get, ⟨goString "x", [], 7, 1⟩⟩,
       ⟨goString "b", .Get, ⟨goString "x", [], 7, 1⟩⟩], goString "y", none⟩ rfl).2.1 rfl⟩

/-- C15. When every per-node call returns an error and the clock reaches the
timeout at some test of the loop condition, `submitOperation` returns, and what it
returns is the empty string with `ErrTimeout`. And whenever `submitOperation`
returns `ErrTimeout`, in any world, every per-node call it made failed. -/
theorem submitOperation_timeout (c : Client) (world : World) (rpc : Rpc) (request : Request)
    (timeout : Int) (n : Nat)
    (hfail : ∀ k id, world.call k id rpc request = none)
    (hclock : timeout ≤ world.since n) :
    (∀ fuel, n + 1 ≤ fuel →
      ∃ r, c.submitOperation world rpc request timeout fuel = some r ∧
        r.value = [] ∧ r.err = some Client.ErrTimeout) ∧
    (∀ (d : Client) (world0 : World) (rpc0 : Rpc) (request0 : Request) (timeout0 : Int)
      (fuel0 : Nat) (r0 : Submitted),
      d.submitOperation world0 rpc0 request0 timeout0 fuel0 = some r0 →
      r0.err = some Client.ErrTimeout → r0.value = [] ∧ AllFailed world0 r0.attempts) := by
  constructor
  · intro fuel hfuel
    obtain ⟨l, atts, hl⟩ := Client.loop_times_out world rpc request timeout hfail n hclock
      n 0 (by omega) fuel hfuel c.leaderID []
    refine ⟨⟨{ c with sequenceNumber := (c.sequenceNumber + 1) % 2 ^ 64, leaderID := l },
      atts, [], some Client.ErrTimeout⟩, ?_, rfl, rfl⟩
    simp [Client.submitOperation, hl]
  · intro d world0 rpc0 request0 timeout0 fuel0 r0 h0 herr
    rcases Client.submitOperation_spec h0 with ⟨he, _⟩ | ⟨_, hv, hall, _⟩
    · rw [herr] at he
      cases he
    · exact ⟨hv, hall⟩

/-- C15 on three nodes that all fail, a clock that advances by 40 ms per test and
a timeout of 100 ms: the call returns `ErrTimeout` at the fourth test. -/
theorem submitOperation_timeout_witness :
    (∀ k id, failingWorld.call k id .Get ⟨goString "x", [], 7, 0⟩ = none) ∧
    (100000000 : Int) ≤ failingWorld.since 3 ∧
    ∃ r, (testClient 0 (goString "a")).submitOperation failingWorld .Get
        ⟨goString "x", [], 7, 0⟩ 100000000 4 = some r ∧
      r.value = [] ∧ r.err = some Client.ErrTimeout :=
  ⟨fun _ _ => rfl, by decide,
    (submitOperation_timeout (testClient 0 (goString "a")) failingWorld .Get
      ⟨goString "x", [], 7, 0⟩ 100000000 3 (fun _ _ => rfl) (by decide)).1 4 (by decide)⟩

/-- C21, at the failing input. The empty store, reached by no call at all, is
written by `Snapshot` without an error and those bytes are read by `Restore` on a
fresh store without an error, yet both tables of the restored store are `nil`. The
put of `TestApply`, which decodes, returns the response `"y"` on the empty store
and stores `x = y`; on the restored store it panics when it stores the session and
leaves no entry. The same holds after one read: the restored store has the session
but a `nil` key-value table, and the put that returns `"z"` on the store itself
panics in `Put` on the restored one. -/
theorem Apply_restored_store_panics :
    Reachable NewKeyValueStore ∧ Reachable (NewKeyValueStore.Apply readX).1 ∧
    ((NewKeyValueStore.Snapshot (Writer.buffer [])).2 = none ∧
      (NewKeyValueStore.Restore
        { data := (NewKeyValueStore.Snapshot (Writer.buffer [])).1.buf }).2 = none ∧
      (restoredFrom NewKeyValueStore).keyValueTable.isAllocated = false ∧
      (restoredFrom NewKeyValueStore).sessionTable.isAllocated = false ∧
      unmarshalRequest testPut.Bytes = some ⟨[0x78], [0x79], 1, 1⟩ ∧
      (NewKeyValueStore.Apply testPut).2 = .response ⟨[0x79]⟩ ∧
      (NewKeyValueStore.Apply testPut).1.keyValueTable.lookup [0x78] = some [0x79] ∧
      ((restoredFrom NewKeyValueStore).Apply testPut).2 = .panic ∧
      ((restoredFrom NewKeyValueStore).Apply testPut).1.keyValueTable.lookup [0x78] = none) ∧
    (((NewKeyValueStore.Apply readX).1.Snapshot (Writer.buffer [])).2 = none ∧
      (NewKeyValueStore.Restore
        { data := ((NewKeyValueStore.Apply readX).1.Snapshot (Writer.buffer [])).1.buf }).2
        = none ∧
      (restoredFrom (NewKeyValueStore.Apply readX).1).keyValueTable.isAllocated = false ∧
      (restoredFrom (NewKeyValueStore.Apply readX).1).sessionTable.isAllocated = true ∧
      unmarshalRequest putXZ.Bytes = some ⟨[0x78], [0x7a], 1, 2⟩ ∧
      ((NewKeyValueStore.Apply readX).1.Apply putXZ).2 = .response ⟨[0x7a]⟩ ∧
      ((restoredFrom (NewKeyValueStore.Apply readX).1).Apply putXZ).2 = .panic) :=
  ⟨⟨[], [], rfl⟩, ⟨[readX], [⟨[]⟩], rfl⟩, by decide, by decide⟩

end KV
